import Mathlib

/-!
# Change discovery on a git branch (`internal/discovery/git_branch.go`)

A shallow embedding of `GitBranchFinder.Find` and its helpers
(`isPathAllowed`, `shouldSkipAllChecks`, `commonLines`, `matchEntries`,
`findRulesByName`), followed by theorems about them.

Conventions of the embedding:
* Go slices are `List`s, `append(xs, x)` is `xs ++ [x]`, a `for range` loop is a
  `List.foldl` over the loop state (or a structural recursion where the loop
  returns early);
* Go `int` line numbers are `Int`;
* a Go `error` is `Option String` (`none` is `nil`), a `(value, error)` result
  whose value is ignored on error is an `Except String`;
* `parser.Rule` is an arbitrary type `R` used only through the methods the
  file calls (`RuleOps`); the collaborators of other packages (`git.*`,
  `readRules`, `addSymlinkedEntries`) are parameters (`Collaborators`).
-/

namespace Discovery

/-! ## Data model -/

/-- Modelled from the spec: the `State` of an entry (`ChangeType`, declared in
`discovery.go`); `Unknown` is the value of an entry whose state was never
assigned. -/
inductive ChangeType where
  | Unknown
  | Added
  | Modified
  | Removed
  | Moved
  | Excluded
  deriving DecidableEq, Repr

/-- The methods of `parser.Rule` called by `git_branch.go`, for a rule type `R`
and a rule-kind type `T` (`parser.RuleType`): `Name()`, `Type()`,
`IsIdentical(other)`, and the zero value of the Go struct. -/
structure RuleOps (R T : Type) where
  Name : R → String
  Typ : R → T
  IsIdentical : R → R → Bool
  zero : R

/-- Modelled from the spec: `Entry` (declared in `discovery.go`), one rule
observed at one path, with the fields `git_branch.go` reads and writes. -/
structure Entry (R : Type) where
  SourcePath : String
  Rule : R
  State : ChangeType
  ModifiedLines : List Int
  PathError : Option String
  deriving DecidableEq, Repr

/-- The zero value of the Go struct `Entry`. -/
def Entry.zero {R T : Type} (ops : RuleOps R T) : Entry R :=
  { SourcePath := "", Rule := ops.zero, State := ChangeType.Unknown,
    ModifiedLines := [], PathError := none }

/-- The Go struct `matchedEntry`. -/
structure matchedEntry (R : Type) where
  before : Entry R
  after : Entry R
  hasBefore : Bool
  hasAfter : Bool
  isIdentical : Bool
  wasMoved : Bool
  deriving DecidableEq, Repr

/-! ## `commonLines` -/

/-- `commonLines(a, b)`: a first loop over `a`, then a second loop over `b`
that appends what is in `a` and not yet in `common`. -/
def commonLines (a b : List Int) : List Int :=
  let common := a.foldl (fun common ai => if b.contains ai then common ++ [ai] else common) []
  b.foldl
    (fun common bi => if a.contains bi && !common.contains bi then common ++ [bi] else common)
    common

/-! ## `findRulesByName` and `matchEntries` -/

section Matching

variable {R T : Type} [DecidableEq T]

/-- The condition of the `if` in `findRulesByName`. -/
def nameMatches (ops : RuleOps R T) (name : String) (typ : T) (entry : Entry R) : Bool :=
  entry.PathError.isNone && decide (ops.Typ entry.Rule = typ) &&
    decide (ops.Name entry.Rule = name)

/-- `findRulesByName(entries, name, typ)`, returning `(nomatch, match)`. -/
def findRulesByName (ops : RuleOps R T) (entries : List (Entry R)) (name : String) (typ : T) :
    List (Entry R) × List (Entry R) :=
  entries.foldl
    (fun acc entry =>
      if nameMatches ops name typ entry then (acc.1, acc.2 ++ [entry])
      else (acc.1 ++ [entry], acc.2))
    ([], [])

/-- The state of the inner loop of `matchEntries`: `m`, `beforeSwap`, `matched`. -/
structure ScanState (R : Type) where
  m : matchedEntry R
  beforeSwap : List (Entry R)
  matched : Bool

/-- The part `a.Rule.Name() != "" && a.Rule.IsIdentical(b.Rule)` of the condition
of the inner loop of `matchEntries`. -/
def identical (ops : RuleOps R T) (a b : Entry R) : Bool :=
  decide (ops.Name a.Rule ≠ "") && ops.IsIdentical a.Rule b.Rule

/-- One iteration of the inner loop `for _, b := range before` of `matchEntries`,
whose condition is `!matched && a.Rule.Name() != "" && a.Rule.IsIdentical(b.Rule)`. -/
def identityStep (ops : RuleOps R T) (a : Entry R) (st : ScanState R) (b : Entry R) :
    ScanState R :=
  if !st.matched && identical ops a b then
    { m := { st.m with
              before := b, hasBefore := true, isIdentical := true,
              wasMoved := decide (a.SourcePath ≠ b.SourcePath) },
      beforeSwap := st.beforeSwap,
      matched := true }
  else
    { st with beforeSwap := st.beforeSwap ++ [b] }

/-- The inner loop of `matchEntries` for the after entry `a`, started with
`m = matchedEntry{after: a, hasAfter: true}`, an empty `beforeSwap` and
`matched = false`. -/
def identityScan (ops : RuleOps R T) (a : Entry R) (before : List (Entry R)) : ScanState R :=
  before.foldl (identityStep ops a)
    { m := { before := Entry.zero ops, after := a, hasBefore := false, hasAfter := true,
             isIdentical := false, wasMoved := false },
      beforeSwap := [],
      matched := false }

/-- The body of the outer loop `for _, a := range after` of `matchEntries`:
from the pool `before` to the new pool and the record `m` appended to `ml`. -/
def matchStep (ops : RuleOps R T) (before : List (Entry R)) (a : Entry R) :
    List (Entry R) × matchedEntry R :=
  let st := identityScan ops a before
  let before := st.beforeSwap
  if !st.matched then
    let r := findRulesByName ops before (ops.Name a.Rule) (ops.Typ a.Rule)
    match r.2 with
    | [] => (r.1, st.m)
    | [b] => (r.1, { st.m with before := b, hasBefore := true })
    | _ => (r.1 ++ r.2, st.m)
  else
    (before, st.m)

/-- The outer loop of `matchEntries` over `after`, on the state `(before, ml)`. -/
def matchLoop (ops : RuleOps R T) (before : List (Entry R)) (ml : List (matchedEntry R))
    (after : List (Entry R)) : List (Entry R) × List (matchedEntry R) :=
  after.foldl
    (fun st a => let r := matchStep ops st.1 a; (r.1, st.2 ++ [r.2]))
    (before, ml)

/-- The record `matchedEntry{before: b, hasBefore: true}` of the last loop. -/
def beforeOnly (ops : RuleOps R T) (b : Entry R) : matchedEntry R :=
  { before := b, after := Entry.zero ops, hasBefore := true, hasAfter := false,
    isIdentical := false, wasMoved := false }

/-- `matchEntries(before, after)`. -/
def matchEntries (ops : RuleOps R T) (before after : List (Entry R)) : List (matchedEntry R) :=
  let st := matchLoop ops before [] after
  st.1.foldl (fun ml b => ml ++ [beforeOnly ops b]) st.2

/-- The leftover before-only results of `matchEntries(before, after)`: the
`before` entries of the records with `hasBefore` and without `hasAfter`. -/
def leftovers (ops : RuleOps R T) (before after : List (Entry R)) : List (Entry R) :=
  ((matchEntries ops before after).filter (fun m => m.hasBefore && !m.hasAfter)).map
    (fun m => m.before)

/-- Whether the iteration of the outer loop of `matchEntries` for `a` on the pool
`before` takes the `default` case of `switch len(matches)`: the identity pass
matched nothing and `findRulesByName` returned two or more candidates. -/
def ambiguousStep (ops : RuleOps R T) (before : List (Entry R)) (a : Entry R) : Bool :=
  let st := identityScan ops a before
  !st.matched &&
    decide (2 ≤ (findRulesByName ops st.beforeSwap (ops.Name a.Rule) (ops.Typ a.Rule)).2.length)

/-- Whether some iteration of the outer loop of `matchEntries(before, after)`
takes that `default` case, each iteration on the pool the previous ones left. -/
def ambiguousRun (ops : RuleOps R T) : List (Entry R) → List (Entry R) → Bool
  | _, [] => false
  | before, a :: rest =>
    ambiguousStep ops before a || ambiguousRun ops (matchStep ops before a).1 rest

end Matching

/-! ## The classifier of `Find` -/

/-- The `switch` in the loop `for _, me := range matchEntries(...)` of `Find`:
the entry appended to `entries` for `me`. `modifiedLines` is
`change.Body.ModifiedLines` and `afterLines` is `git.CountLines(change.Body.After)`. -/
def classify {R : Type} (modifiedLines afterLines : List Int) (me : matchedEntry R) : Entry R :=
  if !me.hasBefore && me.hasAfter then
    { me.after with
      State := ChangeType.Added,
      ModifiedLines := commonLines modifiedLines me.after.ModifiedLines }
  else if me.hasBefore && me.hasAfter then
    if me.isIdentical && !me.wasMoved then
      { me.after with State := ChangeType.Excluded, ModifiedLines := [] }
    else if me.wasMoved then
      { me.after with State := ChangeType.Moved, ModifiedLines := afterLines }
    else
      { me.after with
        State := ChangeType.Modified,
        ModifiedLines := commonLines modifiedLines me.after.ModifiedLines }
  else if me.hasBefore && !me.hasAfter then
    { me.before with State := ChangeType.Removed }
  else
    me.after

/-- The loop `for _, me := range matchEntries(entriesBefore, entriesAfter)` of
`Find`: every record appends one classified entry to `entries`. -/
def classifyAll {R : Type} (modifiedLines afterLines : List Int) (entries : List (Entry R))
    (ml : List (matchedEntry R)) : List (Entry R) :=
  ml.foldl (fun entries me => entries ++ [classify modifiedLines afterLines me]) entries

/-! ## The orchestrator: path filter, skip check and `Find` -/

/-- A compiled `*regexp.Regexp`, used only through `MatchString`. -/
structure Regexp where
  MatchString : String → Bool

/-- Modelled from the spec: one side of `git.FileChange.Path` (package `git`),
with its `Name` and the result of its method `EffectivePath()`. -/
structure PathDetails where
  Name : String
  EffectivePath : String

/-- Modelled from the spec: `git.FileChange.Path` (package `git`). -/
structure PathDiff where
  Before : PathDetails
  After : PathDetails

/-- Modelled from the spec: `git.FileChange.Body` (package `git`): the two body
snapshots and the globally-modified line numbers of the file-level diff. -/
structure BodyDiff where
  Before : List UInt8
  After : List UInt8
  ModifiedLines : List Int

/-- Modelled from the spec: `git.FileChange` (package `git`). -/
structure FileChange where
  Path : PathDiff
  Body : BodyDiff
  Commits : List String

/-- Modelled from the spec: `git.CommitRangeResults` (package `git`). -/
structure CommitRangeResults where
  From : String
  To : String
  Commits : List String

/-- The functions of other packages and files that `Find` calls, with the
command runner `f.gitCmd` fixed: `git.CommitRange`, `git.Changes`,
`git.CommitMessage`, `git.CountLines`, `readRules` (which returns both its
entries and its error) and `addSymlinkedEntries`. `mapKeys` is the order in
which the Go runtime iterates over a map holding the given distinct keys. -/
structure Collaborators (R : Type) where
  CommitRange : String → Except String CommitRangeResults
  Changes : CommitRangeResults → Except String (List FileChange)
  CommitMessage : String → Except String String
  CountLines : List UInt8 → List Int
  readRules : String → String → List UInt8 → Bool → List (Entry R) × Option String
  addSymlinkedEntries : List (Entry R) → Except String (List (Entry R))
  mapKeys : List String → List String

/-- The Go struct `GitBranchFinder`, without `gitCmd` (see `Collaborators`). -/
structure GitBranchFinder where
  includes : List Regexp
  excludes : List Regexp
  baseBranch : String
  maxCommits : Int
  relaxed : List Regexp

/-- The loop `for _, pattern := range patterns` returning at the first pattern
that matches `path`: `true` when some pattern matched. -/
def firstMatch (path : String) : List Regexp → Bool
  | [] => false
  | pattern :: rest => if pattern.MatchString path then true else firstMatch path rest

/-- `GitBranchFinder.isPathAllowed(path)`. -/
def GitBranchFinder.isPathAllowed (f : GitBranchFinder) (path : String) : Bool :=
  if f.includes.length = 0 ∧ f.excludes.length = 0 then true
  else if firstMatch path f.excludes then false
  else if firstMatch path f.includes then true
  else false

/-- Modelled from the spec: `matchesAny` (declared in `discovery.go`), whether
the path matches any of the patterns. -/
def matchesAny (patterns : List Regexp) (path : String) : Bool :=
  patterns.any (fun pattern => pattern.MatchString path)

/-- Go's `strings.Contains(s, substr)`. -/
def stringsContains (s substr : String) : Bool :=
  decide (substr.toList <:+: s.toList)

/-- The markers looked for in commit messages. -/
def skipComments : List String := ["[skip ci]", "[no ci]"]

/-- The first loop of `shouldSkipAllChecks`: the distinct commits of all
changes, in the order in which they are first inserted into the map. -/
def collectCommits (changes : List FileChange) : List String :=
  changes.foldl
    (fun commits change =>
      change.Commits.foldl
        (fun commits commit => if commit ∈ commits then commits else commits ++ [commit])
        commits)
    []

/-- The second loop of `shouldSkipAllChecks`, `for commit := range commits`, over
the keys in iteration order: it returns at the first failed message fetch and
at the first message containing a marker. -/
def skipLoop {R : Type} (c : Collaborators R) : List String → Bool × Option String
  | [] => (false, none)
  | commit :: rest =>
    match c.CommitMessage commit with
    | Except.error err =>
      (false, some ("failed to get commit message for " ++ commit ++ ": " ++ err))
    | Except.ok msg =>
      if skipComments.any (fun comment => stringsContains msg comment) then (true, none)
      else skipLoop c rest

/-- `GitBranchFinder.shouldSkipAllChecks(changes)`. -/
def shouldSkipAllChecks {R : Type} (c : Collaborators R) (changes : List FileChange) :
    Bool × Option String :=
  skipLoop c (c.mapKeys (collectCommits changes))

/-- The loop `for _, change := range changes` of `Find` on the accumulated
`entries`; it returns `(nil, err)` at the first after-snapshot that fails to
parse. -/
def findLoop {R T : Type} [DecidableEq T] (ops : RuleOps R T) (c : Collaborators R)
    (f : GitBranchFinder) : List FileChange → List (Entry R) → List (Entry R) × Option String
  | [], entries => (entries, none)
  | change :: rest, entries =>
    if !f.isPathAllowed change.Path.After.Name then findLoop ops c f rest entries
    else
      let entriesBefore :=
        (c.readRules change.Path.Before.EffectivePath change.Path.Before.Name
          change.Body.Before (!matchesAny f.relaxed change.Path.Before.Name)).1
      let r :=
        c.readRules change.Path.After.EffectivePath change.Path.After.Name
          change.Body.After (!matchesAny f.relaxed change.Path.After.Name)
      match r.2 with
      | some err => ([], some ("invalid file syntax: " ++ err))
      | none =>
        findLoop ops c f rest
          (classifyAll change.Body.ModifiedLines (c.CountLines change.Body.After) entries
            (matchEntries ops entriesBefore r.1))

/-- `GitBranchFinder.Find()`, returning `(entries, err)`. -/
def GitBranchFinder.Find {R T : Type} [DecidableEq T] (ops : RuleOps R T)
    (c : Collaborators R) (f : GitBranchFinder) : List (Entry R) × Option String :=
  match c.CommitRange f.baseBranch with
  | Except.error err => ([], some ("failed to get the list of commits to scan: " ++ err))
  | Except.ok cr =>
    if (cr.Commits.length : Int) > f.maxCommits then
      ([], some ("number of commits to check (" ++ toString cr.Commits.length ++
        ") is higher than maxCommits (" ++ toString f.maxCommits ++ "), exiting"))
    else
      match c.Changes cr with
      | Except.error err => ([], some err)
      | Except.ok changes =>
        match shouldSkipAllChecks c changes with
        | (_, some err) => ([], some err)
        | (shouldSkip, none) =>
          if shouldSkip then ([], none)
          else
            match findLoop ops c f changes [] with
            | (_, some err) => ([], some err)
            | (entries, none) =>
              match c.addSymlinkedEntries entries with
              | Except.error err => ([], some err)
              | Except.ok symlinks =>
                (symlinks.foldl
                  (fun entries entry =>
                    if f.isPathAllowed entry.SourcePath then entries ++ [entry] else entries)
                  entries,
                 none)

/-- The message of the error that `Find` returns when the range holds more
commits than `maxCommits`. -/
def commitVolumeError (commits : Nat) (maxCommits : Int) : String :=
  "number of commits to check (" ++ toString commits ++
    ") is higher than maxCommits (" ++ toString maxCommits ++ "), exiting"

/-! ## Sample rules and entries, for evaluating the definitions -/

/-- A concrete rule: a name, a kind and an expression (a number stands for it). -/
structure SampleRule where
  name : String
  kind : Nat
  expr : Nat
  deriving DecidableEq, Repr

/-- The operations on `SampleRule`: two rules are identical when all their
fields are equal. -/
def sampleOps : RuleOps SampleRule Nat :=
  { Name := fun r => r.name, Typ := fun r => r.kind,
    IsIdentical := fun a b => decide (a = b), zero := { name := "", kind := 0, expr := 0 } }

/-- An entry as the parser returns it: no state yet, no path error. -/
def sampleEntry (path name : String) (kind expr : Nat) (lines : List Int) : Entry SampleRule :=
  { SourcePath := path, Rule := { name := name, kind := kind, expr := expr },
    State := ChangeType.Unknown, ModifiedLines := lines, PathError := none }

/-- A pattern matching the paths that end in `.bak`. -/
def sampleExclude : Regexp := { MatchString := fun s => decide (".bak".toList <:+ s.toList) }

/-- A pattern matching the paths that start with `rules/`. -/
def sampleInclude : Regexp := { MatchString := fun s => decide ("rules/".toList <+: s.toList) }

/-- A finder with one exclude and one include pattern. -/
def sampleFinder : GitBranchFinder :=
  { includes := [sampleInclude], excludes := [sampleExclude], baseBranch := "main",
    maxCommits := 10, relaxed := [] }

/-- One changed file, touched by the commits `c1` and `c2`. -/
def sampleChange : FileChange :=
  { Path := { Before := { Name := "rules/a.yml", EffectivePath := "rules/a.yml" },
              After := { Name := "rules/a.yml", EffectivePath := "rules/a.yml" } },
    Body := { Before := [], After := [], ModifiedLines := [1] },
    Commits := ["c1", "c2"] }

/-- Collaborators of a repository with two commits, the second of which carries
a skip marker; every file parses to one rule. -/
def sampleCollaborators : Collaborators SampleRule :=
  { CommitRange := fun _ => Except.ok { From := "c1", To := "c2", Commits := ["c1", "c2"] },
    Changes := fun _ => Except.ok [sampleChange],
    CommitMessage := fun commit =>
      if commit = "c2" then Except.ok "fix typo [skip ci]" else Except.ok "add rule",
    CountLines := fun _ => [1],
    readRules := fun path _ _ _ => ([sampleEntry path "x" 1 1 [1]], none),
    addSymlinkedEntries := fun _ => Except.ok [],
    mapKeys := fun keys => keys.reverse }

/-- A finder with no include and no exclude pattern and `maxCommits = 10`. -/
def sampleOpenFinder : GitBranchFinder :=
  { includes := [], excludes := [], baseBranch := "main", maxCommits := 10, relaxed := [] }

/-- A second changed file, `rules/b.yml`, touched by the commit `c1`. -/
def sampleChangeB : FileChange :=
  { Path := { Before := { Name := "rules/b.yml", EffectivePath := "rules/b.yml" },
              After := { Name := "rules/b.yml", EffectivePath := "rules/b.yml" } },
    Body := { Before := [], After := [], ModifiedLines := [1] },
    Commits := ["c1"] }

/-- Collaborators of a repository whose range holds `commits`, with two changed
files and no skip marker; `rules/b.yml` does not parse, any other file parses
to one rule. -/
def sampleRangeCollaborators (commits : List String) : Collaborators SampleRule :=
  { CommitRange := fun _ => Except.ok { From := "c1", To := "c2", Commits := commits },
    Changes := fun _ => Except.ok [sampleChange, sampleChangeB],
    CommitMessage := fun _ => Except.ok "add rule",
    CountLines := fun _ => [1],
    readRules := fun path _ _ _ =>
      if path = "rules/b.yml" then ([], some "bad yaml")
      else ([sampleEntry path "x" 1 1 [1]], none),
    addSymlinkedEntries := fun _ => Except.ok [],
    mapKeys := fun keys => keys }

/-- Eleven commit ids. -/
def elevenCommits : List String :=
  ["c1", "c2", "c3", "c4", "c5", "c6", "c7", "c8", "c9", "c10", "c11"]

/-- Ten commit ids. -/
def tenCommits : List String :=
  ["c1", "c2", "c3", "c4", "c5", "c6", "c7", "c8", "c9", "c10"]

/-! ## Lemmas on the loops -/

theorem foldl_cond_append_forall {α : Type} (P : α → Prop) (c : List α → α → Bool) :
    ∀ (l acc : List α), (∀ x ∈ acc, P x) → (∀ x ∈ l, ∀ acc', c acc' x = true → P x) →
      ∀ y ∈ l.foldl (fun acc x => if c acc x then acc ++ [x] else acc) acc, P y := by
  intro l
  induction l with
  | nil => intro acc hacc _ y hy; exact hacc y hy
  | cons x xs ih =>
    intro acc hacc hl y hy
    rw [List.foldl_cons] at hy
    refine ih _ ?_ (fun z hz => hl z (List.mem_cons_of_mem _ hz)) y hy
    intro z hz
    by_cases hc : c acc x = true
    · rw [if_pos hc] at hz
      rcases List.mem_append.1 hz with h | h
      · exact hacc z h
      · rw [List.mem_singleton.1 h]; exact hl x (List.mem_cons_self _ _) acc hc
    · rw [if_neg hc] at hz; exact hacc z hz

theorem mem_commonLines {a b : List Int} {x : Int} (h : x ∈ commonLines a b) :
    x ∈ a ∧ x ∈ b := by
  unfold commonLines at h
  refine foldl_cond_append_forall (fun y => y ∈ a ∧ y ∈ b)
    (fun common bi => a.contains bi && !common.contains bi) b _ ?_ ?_ x h
  · refine foldl_cond_append_forall (fun y => y ∈ a ∧ y ∈ b)
      (fun _ ai => b.contains ai) a [] ?_ ?_
    · intro y hy; cases hy
    · intro y hy _ hc
      exact ⟨hy, by simpa using hc⟩
  · intro y hy acc hc
    simp only [Bool.and_eq_true] at hc
    exact ⟨by simpa using hc.1, hy⟩

section Lemmas

set_option linter.unusedSectionVars false

variable {R T : Type} [DecidableEq T]

theorem findRulesByName_foldl (ops : RuleOps R T) (name : String) (typ : T) :
    ∀ (entries : List (Entry R)) (acc : List (Entry R) × List (Entry R)),
      entries.foldl
        (fun acc entry =>
          if nameMatches ops name typ entry then (acc.1, acc.2 ++ [entry])
          else (acc.1 ++ [entry], acc.2)) acc =
      (acc.1 ++ entries.filter (fun e => !nameMatches ops name typ e),
       acc.2 ++ entries.filter (fun e => nameMatches ops name typ e)) := by
  intro entries
  induction entries with
  | nil => intro acc; simp
  | cons e es ih =>
    intro acc
    rw [List.foldl_cons, ih]
    by_cases h : nameMatches ops name typ e = true
    · simp [h]
    · simp [h]

theorem findRulesByName_eq (ops : RuleOps R T) (entries : List (Entry R)) (name : String)
    (typ : T) :
    findRulesByName ops entries name typ =
      (entries.filter (fun e => !nameMatches ops name typ e),
       entries.filter (fun e => nameMatches ops name typ e)) := by
  unfold findRulesByName
  rw [findRulesByName_foldl]
  simp

theorem identityStep_foldl_matched (ops : RuleOps R T) (a : Entry R) :
    ∀ (l : List (Entry R)) (st : ScanState R), st.matched = true →
      l.foldl (identityStep ops a) st = { st with beforeSwap := st.beforeSwap ++ l } := by
  intro l
  induction l with
  | nil => intro st _; simp
  | cons b bs ih =>
    intro st hst
    rw [List.foldl_cons]
    have hstep : identityStep ops a st b = { st with beforeSwap := st.beforeSwap ++ [b] } := by
      simp [identityStep, hst]
    rw [hstep, ih { st with beforeSwap := st.beforeSwap ++ [b] } hst]
    simp

theorem identityStep_foldl (ops : RuleOps R T) (a : Entry R) :
    ∀ (l : List (Entry R)) (st : ScanState R), st.matched = false →
      l.foldl (identityStep ops a) st =
        match l.find? (identical ops a) with
        | none => { st with beforeSwap := st.beforeSwap ++ l }
        | some b =>
          { m := { st.m with
                    before := b, hasBefore := true, isIdentical := true,
                    wasMoved := decide (a.SourcePath ≠ b.SourcePath) },
            beforeSwap := st.beforeSwap ++ l.eraseP (identical ops a),
            matched := true } := by
  intro l
  induction l with
  | nil => intro st _; simp
  | cons b bs ih =>
    intro st hst
    rw [List.foldl_cons]
    by_cases hb : identical ops a b = true
    · have hstep : identityStep ops a st b =
          { m := { st.m with
                    before := b, hasBefore := true, isIdentical := true,
                    wasMoved := decide (a.SourcePath ≠ b.SourcePath) },
            beforeSwap := st.beforeSwap,
            matched := true } := by
        simp [identityStep, hst, hb]
      rw [hstep, identityStep_foldl_matched ops a bs _ rfl]
      simp [List.find?_cons, List.eraseP_cons, hb]
    · have hstep : identityStep ops a st b = { st with beforeSwap := st.beforeSwap ++ [b] } := by
        simp [identityStep, hst, hb]
      rw [hstep, ih { st with beforeSwap := st.beforeSwap ++ [b] } hst]
      simp [List.find?_cons, List.eraseP_cons, hb]

theorem identityScan_eq (ops : RuleOps R T) (a : Entry R) (before : List (Entry R)) :
    identityScan ops a before =
      match before.find? (identical ops a) with
      | none =>
        { m := { before := Entry.zero ops, after := a, hasBefore := false, hasAfter := true,
                 isIdentical := false, wasMoved := false },
          beforeSwap := before, matched := false }
      | some b =>
        { m := { before := b, after := a, hasBefore := true, hasAfter := true,
                 isIdentical := true, wasMoved := decide (a.SourcePath ≠ b.SourcePath) },
          beforeSwap := before.eraseP (identical ops a), matched := true } := by
  unfold identityScan
  rw [identityStep_foldl ops a before _ rfl]
  cases before.find? (identical ops a) <;> simp

theorem matchStep_of_find_some (ops : RuleOps R T) (a b : Entry R) (before : List (Entry R))
    (h : before.find? (identical ops a) = some b) :
    matchStep ops before a =
      (before.eraseP (identical ops a),
       { before := b, after := a, hasBefore := true, hasAfter := true,
         isIdentical := true, wasMoved := decide (a.SourcePath ≠ b.SourcePath) }) := by
  unfold matchStep
  rw [identityScan_eq, h]
  simp

theorem matchStep_of_find_none (ops : RuleOps R T) (a : Entry R) (before : List (Entry R))
    (h : before.find? (identical ops a) = none) :
    matchStep ops before a =
      match before.filter (fun e => nameMatches ops (ops.Name a.Rule) (ops.Typ a.Rule) e) with
      | [] =>
        (before.filter (fun e => !nameMatches ops (ops.Name a.Rule) (ops.Typ a.Rule) e),
         { before := Entry.zero ops, after := a, hasBefore := false, hasAfter := true,
           isIdentical := false, wasMoved := false })
      | [b] =>
        (before.filter (fun e => !nameMatches ops (ops.Name a.Rule) (ops.Typ a.Rule) e),
         { before := b, after := a, hasBefore := true, hasAfter := true,
           isIdentical := false, wasMoved := false })
      | b :: c :: rest =>
        (before.filter (fun e => !nameMatches ops (ops.Name a.Rule) (ops.Typ a.Rule) e) ++
           b :: c :: rest,
         { before := Entry.zero ops, after := a, hasBefore := false, hasAfter := true,
           isIdentical := false, wasMoved := false }) := by
  unfold matchStep
  rw [identityScan_eq, h]
  simp only [findRulesByName_eq, Bool.not_false, if_true]
  rcases hm : before.filter (fun e => nameMatches ops (ops.Name a.Rule) (ops.Typ a.Rule) e)
    with _ | ⟨b, _ | ⟨c, rest⟩⟩ <;> simp

theorem matchStep_after (ops : RuleOps R T) (a : Entry R) (before : List (Entry R)) :
    (matchStep ops before a).2.after = a ∧ (matchStep ops before a).2.hasAfter = true := by
  cases h : before.find? (identical ops a) with
  | some b => rw [matchStep_of_find_some ops a b before h]; simp
  | none =>
    rw [matchStep_of_find_none ops a before h]
    rcases before.filter (fun e => nameMatches ops (ops.Name a.Rule) (ops.Typ a.Rule) e)
      with _ | ⟨b, _ | ⟨c, rest⟩⟩ <;> simp

theorem matchStep_subperm (ops : RuleOps R T) (a : Entry R) (before : List (Entry R)) :
    (matchStep ops before a).1.Subperm before := by
  cases h : before.find? (identical ops a) with
  | some b =>
    rw [matchStep_of_find_some ops a b before h]
    exact (List.eraseP_sublist before).subperm
  | none =>
    rw [matchStep_of_find_none ops a before h]
    rcases hm : before.filter (fun e => nameMatches ops (ops.Name a.Rule) (ops.Typ a.Rule) e)
      with _ | ⟨b, _ | ⟨c, rest⟩⟩
    · exact (List.filter_sublist before).subperm
    · exact (List.filter_sublist before).subperm
    · show (_ ++ b :: c :: rest).Subperm before
      rw [← hm]
      refine List.Perm.subperm ?_
      exact List.perm_append_comm.trans (List.filter_append_perm _ before)

theorem matchLoop_cons (ops : RuleOps R T) (before : List (Entry R))
    (ml : List (matchedEntry R)) (a : Entry R) (rest : List (Entry R)) :
    matchLoop ops before ml (a :: rest) =
      matchLoop ops (matchStep ops before a).1 (ml ++ [(matchStep ops before a).2]) rest := by
  simp [matchLoop]

theorem matchLoop_acc (ops : RuleOps R T) :
    ∀ (after before : List (Entry R)) (ml : List (matchedEntry R)),
      matchLoop ops before ml after =
        ((matchLoop ops before [] after).1, ml ++ (matchLoop ops before [] after).2) := by
  intro after
  induction after with
  | nil => intro before ml; simp [matchLoop]
  | cons a rest ih =>
    intro before ml
    rw [matchLoop_cons, matchLoop_cons, ih _ (ml ++ _), ih _ ([] ++ _)]
    simp

theorem foldl_beforeOnly (ops : RuleOps R T) :
    ∀ (pool : List (Entry R)) (ml : List (matchedEntry R)),
      pool.foldl (fun ml b => ml ++ [beforeOnly ops b]) ml = ml ++ pool.map (beforeOnly ops) := by
  intro pool
  induction pool with
  | nil => intro ml; simp
  | cons b bs ih => intro ml; rw [List.foldl_cons, ih]; simp

theorem matchEntries_nil (ops : RuleOps R T) (before : List (Entry R)) :
    matchEntries ops before [] = before.map (beforeOnly ops) := by
  simp [matchEntries, matchLoop, foldl_beforeOnly]

theorem matchEntries_cons (ops : RuleOps R T) (before : List (Entry R)) (a : Entry R)
    (rest : List (Entry R)) :
    matchEntries ops before (a :: rest) =
      (matchStep ops before a).2 :: matchEntries ops (matchStep ops before a).1 rest := by
  simp only [matchEntries, foldl_beforeOnly]
  rw [matchLoop_cons, matchLoop_acc]
  simp

theorem matchEntries_forall (ops : RuleOps R T) (P : matchedEntry R → Prop)
    (hstep : ∀ (pool : List (Entry R)) (a : Entry R), P (matchStep ops pool a).2)
    (hrest : ∀ b : Entry R, P (beforeOnly ops b)) :
    ∀ (after before : List (Entry R)), ∀ me ∈ matchEntries ops before after, P me := by
  intro after
  induction after with
  | nil =>
    intro before me hme
    rw [matchEntries_nil] at hme
    obtain ⟨b, _, rfl⟩ := List.mem_map.1 hme
    exact hrest b
  | cons a rest ih =>
    intro before me hme
    rw [matchEntries_cons] at hme
    rcases List.mem_cons.1 hme with h | h
    · rw [h]; exact hstep before a
    · exact ih _ me h

theorem matchStep_flags (ops : RuleOps R T) (pool : List (Entry R)) (a : Entry R) :
    ((matchStep ops pool a).2.wasMoved = true → (matchStep ops pool a).2.isIdentical = true) ∧
      ((matchStep ops pool a).2.hasBefore = true ∨ (matchStep ops pool a).2.hasAfter = true) := by
  cases h : pool.find? (identical ops a) with
  | some b => rw [matchStep_of_find_some ops a b pool h]; simp
  | none =>
    rw [matchStep_of_find_none ops a pool h]
    rcases pool.filter (fun e => nameMatches ops (ops.Name a.Rule) (ops.Typ a.Rule) e)
      with _ | ⟨b, _ | ⟨c, rest⟩⟩ <;> simp

theorem matchEntries_flags (ops : RuleOps R T) (before after : List (Entry R)) :
    ∀ me ∈ matchEntries ops before after,
      (me.wasMoved = true → me.isIdentical = true) ∧
        (me.hasBefore = true ∨ me.hasAfter = true) :=
  matchEntries_forall ops _ (matchStep_flags ops) (fun b => by simp [beforeOnly]) after before

theorem classifyAll_eq (modifiedLines afterLines : List Int) :
    ∀ (ml : List (matchedEntry R)) (entries : List (Entry R)),
      classifyAll modifiedLines afterLines entries ml =
        entries ++ ml.map (classify modifiedLines afterLines) := by
  intro ml
  induction ml with
  | nil => intro entries; simp [classifyAll]
  | cons me rest ih =>
    intro entries
    have h := ih (entries ++ [classify modifiedLines afterLines me])
    simp only [classifyAll, List.foldl_cons] at h ⊢
    rw [h]; simp

theorem leftovers_nil (ops : RuleOps R T) (before : List (Entry R)) :
    leftovers ops before [] = before := by
  unfold leftovers
  rw [matchEntries_nil]
  induction before with
  | nil => rfl
  | cons b bs ih =>
    simp only [List.map_cons, List.filter_cons]
    simp only [beforeOnly, Bool.not_false, Bool.and_self, if_true, List.map_cons]
    simp only [beforeOnly] at ih
    rw [ih]

theorem leftovers_cons (ops : RuleOps R T) (before : List (Entry R)) (a : Entry R)
    (rest : List (Entry R)) :
    leftovers ops before (a :: rest) = leftovers ops (matchStep ops before a).1 rest := by
  unfold leftovers
  rw [matchEntries_cons, List.filter_cons]
  simp [(matchStep_after ops a before).2]

theorem matchLoop_pool_cons (ops : RuleOps R T) (before : List (Entry R)) (a : Entry R)
    (rest : List (Entry R)) :
    (matchLoop ops before [] (a :: rest)).1 =
      (matchLoop ops (matchStep ops before a).1 [] rest).1 := by
  rw [matchLoop_cons, matchLoop_acc]

theorem leftovers_eq_pool (ops : RuleOps R T) :
    ∀ (after before : List (Entry R)),
      leftovers ops before after = (matchLoop ops before [] after).1 := by
  intro after
  induction after with
  | nil => intro before; rw [leftovers_nil]; rfl
  | cons a rest ih => intro before; rw [leftovers_cons, matchLoop_pool_cons, ih]

theorem leftovers_subperm (ops : RuleOps R T) :
    ∀ (after before : List (Entry R)), (leftovers ops before after).Subperm before := by
  intro after
  induction after with
  | nil => intro before; rw [leftovers_nil]
  | cons a rest ih =>
    intro before
    rw [leftovers_cons]
    exact (ih _).trans (matchStep_subperm ops a before)

theorem matchStep_sublist (ops : RuleOps R T) (a : Entry R) (before : List (Entry R))
    (h : (before.filter
      (fun e => nameMatches ops (ops.Name a.Rule) (ops.Typ a.Rule) e)).length ≤ 1) :
    (matchStep ops before a).1.Sublist before := by
  cases hf : before.find? (identical ops a) with
  | some b =>
    rw [matchStep_of_find_some ops a b before hf]
    exact List.eraseP_sublist before
  | none =>
    rw [matchStep_of_find_none ops a before hf]
    rcases hm : before.filter (fun e => nameMatches ops (ops.Name a.Rule) (ops.Typ a.Rule) e)
      with _ | ⟨b, _ | ⟨c, rest⟩⟩
    · exact List.filter_sublist before
    · exact List.filter_sublist before
    · rw [hm] at h; simp at h

theorem matchEntries_after_mem (ops : RuleOps R T) :
    ∀ (after before : List (Entry R)), ∀ me ∈ matchEntries ops before after,
      me.hasAfter = true → me.after ∈ after := by
  intro after
  induction after with
  | nil =>
    intro before me hme h
    rw [matchEntries_nil] at hme
    obtain ⟨b, _, rfl⟩ := List.mem_map.1 hme
    simp [beforeOnly] at h
  | cons a rest ih =>
    intro before me hme h
    rw [matchEntries_cons] at hme
    rcases List.mem_cons.1 hme with hm | hm
    · rw [hm, (matchStep_after ops a before).1]; exact List.mem_cons_self _ _
    · exact List.mem_cons_of_mem _ (ih _ me hm h)

theorem countP_eraseP_of_find {α : Type} (p : α → Bool) :
    ∀ (l : List α) (x : α), l.find? p = some x →
      (l.eraseP p).countP p + 1 = l.countP p := by
  intro l
  induction l with
  | nil => intro x h; simp at h
  | cons y ys ih =>
    intro x h
    by_cases hy : p y = true
    · simp [List.eraseP_cons, List.countP_cons, hy]
    · have h' : ys.find? p = some x := by simpa [List.find?_cons, hy] using h
      simp [List.eraseP_cons, List.countP_cons, hy, ih x h']

theorem mem_matchStep_of_not_consumed (ops : RuleOps R T) (pool : List (Entry R))
    (a b : Entry R) (hb : b ∈ pool) (hid : identical ops a b = false)
    (hname : nameMatches ops (ops.Name a.Rule) (ops.Typ a.Rule) b = false) :
    b ∈ (matchStep ops pool a).1 := by
  cases hf : pool.find? (identical ops a) with
  | some x =>
    rw [matchStep_of_find_some ops a x pool hf]
    exact (List.mem_eraseP_of_neg (by simp [hid])).2 hb
  | none =>
    rw [matchStep_of_find_none ops a pool hf]
    have hmem : b ∈ pool.filter
        (fun e => !nameMatches ops (ops.Name a.Rule) (ops.Typ a.Rule) e) := by
      simp [List.mem_filter, hb, hname]
    rcases hm : pool.filter (fun e => nameMatches ops (ops.Name a.Rule) (ops.Typ a.Rule) e)
      with _ | ⟨c, _ | ⟨d, rest⟩⟩
    · exact hmem
    · exact hmem
    · exact List.mem_append_left _ hmem

theorem matchEntries_before_mem (ops : RuleOps R T) :
    ∀ (after pool : List (Entry R)), ∀ me ∈ matchEntries ops pool after,
      me.hasAfter = false → me.before ∈ pool := by
  intro after
  induction after with
  | nil =>
    intro pool me hme _
    rw [matchEntries_nil] at hme
    obtain ⟨b, hb, rfl⟩ := List.mem_map.1 hme
    exact hb
  | cons a rest ih =>
    intro pool me hme h
    rw [matchEntries_cons] at hme
    rcases List.mem_cons.1 hme with hm | hm
    · rw [hm, (matchStep_after ops a pool).2] at h; cases h
    · exact (matchStep_subperm ops a pool).subset (ih _ me hm h)

theorem identity_pass_core (ops : RuleOps R T) (before post : List (Entry R)) (a b : Entry R)
    (hb : identical ops a b = true) (hpath : a.SourcePath ≠ b.SourcePath)
    (hset : ∀ x ∈ before, identical ops a x = true → x = b)
    (hcount : before.countP (identical ops a) ≤ 1) :
    ∀ (pre pool : List (Entry R)), b ∈ pool → pool.Subperm before →
      (∀ a' ∈ pre, identical ops a' b = false ∧
        nameMatches ops (ops.Name a'.Rule) (ops.Typ a'.Rule) b = false) →
      (matchEntries ops pool (pre ++ a :: post))[pre.length]? =
          some { before := b, after := a, hasBefore := true, hasAfter := true,
                 isIdentical := true, wasMoved := true } ∧
        ∀ m ∈ matchEntries ops pool (pre ++ a :: post), m.hasAfter = false → m.before ≠ b := by
  intro pre
  induction pre with
  | nil =>
    intro pool hmem hsub _
    obtain ⟨x, hx⟩ : ∃ x, pool.find? (identical ops a) = some x := by
      cases hf : pool.find? (identical ops a) with
      | some x => exact ⟨x, rfl⟩
      | none =>
        rw [List.find?_eq_none] at hf
        exact absurd hb (hf b hmem)
    have hxb : x = b :=
      hset x (hsub.subset (List.mem_of_find?_eq_some hx)) (List.find?_some hx)
    subst hxb
    rw [List.nil_append, matchEntries_cons, matchStep_of_find_some ops a x pool hx]
    refine ⟨by simp [hpath], ?_⟩
    intro m hm hafter
    rcases List.mem_cons.1 hm with h | h
    · rw [h] at hafter; cases hafter
    · have hin := matchEntries_before_mem ops post _ m h hafter
      have hc := countP_eraseP_of_find (identical ops a) pool x hx
      have hle := (hsub.countP_le (identical ops a)).trans hcount
      have hzero : (pool.eraseP (identical ops a)).countP (identical ops a) = 0 := by omega
      rw [List.countP_eq_zero] at hzero
      intro heq
      exact hzero m.before hin (by rw [heq]; exact hb)
  | cons a' pre ih =>
    intro pool hmem hsub hpre
    have ha' := hpre a' (List.mem_cons_self _ _)
    obtain ⟨h1, h2⟩ := ih (matchStep ops pool a').1
      (mem_matchStep_of_not_consumed ops pool a' b hmem ha'.1 ha'.2)
      ((matchStep_subperm ops a' pool).trans hsub)
      (fun c hc => hpre c (List.mem_cons_of_mem _ hc))
    rw [List.cons_append, matchEntries_cons]
    refine ⟨by simpa using h1, ?_⟩
    intro m hm hafter
    rcases List.mem_cons.1 hm with h | h
    · rw [h, (matchStep_after ops a' pool).2] at hafter; cases hafter
    · exact h2 m h hafter

theorem firstMatch_eq_true (path : String) (patterns : List Regexp) :
    firstMatch path patterns = true ↔ ∃ p ∈ patterns, p.MatchString path = true := by
  induction patterns with
  | nil => simp [firstMatch]
  | cons p ps ih =>
    by_cases h : p.MatchString path = true
    · simp [firstMatch, h]
    · simp [firstMatch, h, ih]

theorem mem_foldl_insert (commit : String) :
    ∀ (l acc : List String),
      commit ∈ l.foldl (fun commits c => if c ∈ commits then commits else commits ++ [c]) acc ↔
        commit ∈ acc ∨ commit ∈ l := by
  intro l
  induction l with
  | nil => intro acc; simp
  | cons c cs ih =>
    intro acc
    rw [List.foldl_cons, ih]
    by_cases hc : c ∈ acc
    · rw [if_pos hc]
      constructor
      · rintro (h | h)
        · exact Or.inl h
        · exact Or.inr (List.mem_cons_of_mem _ h)
      · rintro (h | h)
        · exact Or.inl h
        · rcases List.mem_cons.1 h with h | h
          · exact Or.inl (h ▸ hc)
          · exact Or.inr h
    · rw [if_neg hc]
      simp only [List.mem_append, List.mem_singleton, List.mem_cons]
      tauto

theorem mem_collectCommits_foldl (commit : String) :
    ∀ (changes : List FileChange) (acc : List String),
      commit ∈ changes.foldl
          (fun commits change =>
            change.Commits.foldl
              (fun commits c => if c ∈ commits then commits else commits ++ [c]) commits) acc ↔
        commit ∈ acc ∨ ∃ change ∈ changes, commit ∈ change.Commits := by
  intro changes
  induction changes with
  | nil => intro acc; simp
  | cons ch chs ih =>
    intro acc
    rw [List.foldl_cons, ih, mem_foldl_insert]
    simp only [List.mem_cons, exists_eq_or_imp]
    tauto

theorem mem_collectCommits (commit : String) (changes : List FileChange) :
    commit ∈ collectCommits changes ↔ ∃ change ∈ changes, commit ∈ change.Commits := by
  unfold collectCommits
  rw [mem_collectCommits_foldl]
  simp

theorem skipLoop_marker (c : Collaborators R) :
    ∀ keys : List String,
      (∀ k ∈ keys, ∃ msg, c.CommitMessage k = Except.ok msg) →
      (∃ k ∈ keys, ∃ msg, c.CommitMessage k = Except.ok msg ∧
        (stringsContains msg "[skip ci]" = true ∨ stringsContains msg "[no ci]" = true)) →
      skipLoop c keys = (true, none) := by
  intro keys
  induction keys with
  | nil => rintro _ ⟨k, hk, _⟩; cases hk
  | cons k ks ih =>
    intro hall hex
    obtain ⟨msg, hmsg⟩ := hall k (List.mem_cons_self _ _)
    unfold skipLoop
    rw [hmsg]
    by_cases hany : skipComments.any (fun comment => stringsContains msg comment) = true
    · simp only [hany, if_true]
    · simp only [hany]
      refine ih (fun k' hk' => hall k' (List.mem_cons_of_mem _ hk')) ?_
      obtain ⟨k', hk', msg', hmsg', hmark⟩ := hex
      rcases List.mem_cons.1 hk' with h | h
      · subst h
        rw [hmsg] at hmsg'
        cases hmsg'
        exact absurd (by simpa [skipComments] using hmark) hany
      · exact ⟨k', h, msg', hmsg', hmark⟩

theorem isPathAllowed_maxCommits (f : GitBranchFinder) (m : Int) (path : String) :
    GitBranchFinder.isPathAllowed { f with maxCommits := m } path = f.isPathAllowed path := rfl

theorem findLoop_maxCommits (ops : RuleOps R T) (c : Collaborators R) (f : GitBranchFinder)
    (m : Int) :
    ∀ (changes : List FileChange) (entries : List (Entry R)),
      findLoop ops c { f with maxCommits := m } changes entries =
        findLoop ops c f changes entries := by
  intro changes
  induction changes with
  | nil => intro entries; rfl
  | cons change rest ih =>
    intro entries
    unfold findLoop
    simp only [isPathAllowed_maxCommits, ih]

theorem matchEntries_nil_before (ops : RuleOps R T) :
    ∀ after : List (Entry R),
      matchEntries ops [] after =
        after.map (fun a =>
          { before := Entry.zero ops, after := a, hasBefore := false, hasAfter := true,
            isIdentical := false, wasMoved := false }) := by
  intro after
  induction after with
  | nil => rw [matchEntries_nil]; rfl
  | cons a rest ih =>
    rw [matchEntries_cons, matchStep_of_find_none ops a [] rfl]
    simp only [List.filter_nil, List.map_cons]
    rw [ih]

theorem commonLines_first_pass (b : List Int) :
    ∀ (a acc : List Int),
      a.foldl (fun common ai => if b.contains ai then common ++ [ai] else common) acc =
        acc ++ a.filter (fun ai => b.contains ai) := by
  intro a
  induction a with
  | nil => intro acc; simp
  | cons x xs ih =>
    intro acc
    rw [List.foldl_cons, ih]
    by_cases h : b.contains x = true
    · simp only [h, if_true, List.filter_cons, List.append_assoc, List.singleton_append]
    · simp only [h, List.filter_cons, Bool.false_eq_true, if_false]

theorem foldl_cond_append_skip {α : Type} (c : List α → α → Bool) (acc : List α) :
    ∀ l : List α, (∀ x ∈ l, c acc x = false) →
      l.foldl (fun acc x => if c acc x then acc ++ [x] else acc) acc = acc := by
  intro l
  induction l with
  | nil => intro _; rfl
  | cons x xs ih =>
    intro h
    rw [List.foldl_cons, h x (List.mem_cons_self _ _)]
    exact ih (fun y hy => h y (List.mem_cons_of_mem _ hy))

theorem commonLines_eq_filter (a b : List Int) :
    commonLines a b = a.filter (fun ai => b.contains ai) := by
  unfold commonLines
  simp only [commonLines_first_pass, List.nil_append]
  apply foldl_cond_append_skip
    (fun common bi => a.contains bi && !common.contains bi)
  intro x hx
  have hmem : x ∈ a → x ∈ a.filter (fun ai => b.contains ai) := by
    intro ha
    exact List.mem_filter.2 ⟨ha, by simpa using hx⟩
  by_cases ha : x ∈ a
  · simp [ha, hmem ha, hx]
  · simp [ha]

theorem perm_cons_eraseP_of_find {α : Type} (p : α → Bool) :
    ∀ (l : List α) (x : α), l.find? p = some x → (x :: l.eraseP p).Perm l := by
  intro l
  induction l with
  | nil => intro x h; simp at h
  | cons y ys ih =>
    intro x h
    by_cases hy : p y = true
    · have hxy : y = x := by simpa [List.find?_cons, hy] using h
      subst hxy
      simp [List.eraseP_cons, hy]
    · have h' : ys.find? p = some x := by simpa [List.find?_cons, hy] using h
      simp only [List.eraseP_cons, hy, Bool.false_eq_true, if_false]
      exact (List.Perm.swap y x _).trans ((ih x h').cons y)

theorem matchStep_conservation (ops : RuleOps R T) (pool : List (Entry R)) (a : Entry R) :
    (if (matchStep ops pool a).2.hasBefore then
        (matchStep ops pool a).2.before :: (matchStep ops pool a).1
      else (matchStep ops pool a).1).Perm pool := by
  cases hf : pool.find? (identical ops a) with
  | some b =>
    rw [matchStep_of_find_some ops a b pool hf]
    exact perm_cons_eraseP_of_find _ pool b hf
  | none =>
    rw [matchStep_of_find_none ops a pool hf]
    have hperm := List.filter_append_perm
      (fun e => nameMatches ops (ops.Name a.Rule) (ops.Typ a.Rule) e) pool
    rcases hm : pool.filter (fun e => nameMatches ops (ops.Name a.Rule) (ops.Typ a.Rule) e)
      with _ | ⟨b, _ | ⟨c, rest⟩⟩
    · rw [hm] at hperm
      simpa using hperm
    · rw [hm] at hperm
      simpa using hperm
    · rw [hm] at hperm
      simp only [Bool.false_eq_true, if_false]
      exact List.perm_append_comm.trans hperm

theorem matchEntries_before_perm (ops : RuleOps R T) :
    ∀ (after pool : List (Entry R)),
      (((matchEntries ops pool after).filter (fun m => m.hasBefore)).map
        (fun m => m.before)).Perm pool := by
  intro after
  induction after with
  | nil =>
    intro pool
    rw [matchEntries_nil]
    have h : ((pool.map (beforeOnly ops)).filter (fun m => m.hasBefore)).map
        (fun m => m.before) = pool := by
      induction pool with
      | nil => rfl
      | cons b bs ih =>
        simp only [List.map_cons, List.filter_cons]
        simp only [beforeOnly, if_true, List.map_cons]
        simp only [beforeOnly] at ih
        rw [ih]
    rw [h]
  | cons a rest ih =>
    intro pool
    rw [matchEntries_cons, List.filter_cons]
    have hc := matchStep_conservation ops pool a
    by_cases hb : (matchStep ops pool a).2.hasBefore = true
    · rw [if_pos hb] at hc ⊢
      rw [List.map_cons]
      exact ((ih _).cons _).trans hc
    · rw [if_neg hb] at hc ⊢
      exact (ih _).trans hc

theorem matchEntries_after_eq (ops : RuleOps R T) :
    ∀ (after pool : List (Entry R)),
      ((matchEntries ops pool after).filter (fun m => m.hasAfter)).map (fun m => m.after) =
        after := by
  intro after
  induction after with
  | nil =>
    intro pool
    rw [matchEntries_nil]
    induction pool with
    | nil => rfl
    | cons b bs ih =>
      simp only [List.map_cons, List.filter_cons]
      simp only [beforeOnly, Bool.false_eq_true, if_false]
      simpa only [beforeOnly] using ih
  | cons a rest ih =>
    intro pool
    rw [matchEntries_cons, List.filter_cons, if_pos (matchStep_after ops a pool).2,
      List.map_cons, (matchStep_after ops a pool).1, ih]

theorem matchEntries_length (ops : RuleOps R T) :
    ∀ (after pool : List (Entry R)),
      (matchEntries ops pool after).length +
          ((matchEntries ops pool after).filter (fun m => m.hasBefore && m.hasAfter)).length =
        after.length + pool.length := by
  intro after
  induction after with
  | nil =>
    intro pool
    rw [matchEntries_nil]
    have h : (pool.map (beforeOnly ops)).filter (fun m => m.hasBefore && m.hasAfter) = [] := by
      rw [List.filter_eq_nil_iff]
      intro m hm
      obtain ⟨b, _, rfl⟩ := List.mem_map.1 hm
      simp [beforeOnly]
    rw [h]
    simp
  | cons a rest ih =>
    intro pool
    rw [matchEntries_cons, List.filter_cons]
    have hc := (matchStep_conservation ops pool a).length_eq
    have hi := ih (matchStep ops pool a).1
    have ha := (matchStep_after ops a pool).2
    by_cases hb : (matchStep ops pool a).2.hasBefore = true
    · rw [if_pos hb] at hc
      simp only [hb, ha, Bool.and_self, if_true, List.length_cons] at hc ⊢
      omega
    · rw [if_neg hb] at hc
      simp only [hb, Bool.false_and, Bool.false_eq_true, if_false, List.length_cons] at hc ⊢
      omega

theorem matchStep_identity_flags (ops : RuleOps R T) (pool : List (Entry R)) (a : Entry R) :
    (matchStep ops pool a).2.isIdentical = true →
      (matchStep ops pool a).2.hasBefore = true ∧
      ops.Name (matchStep ops pool a).2.after.Rule ≠ "" ∧
      ops.IsIdentical (matchStep ops pool a).2.after.Rule (matchStep ops pool a).2.before.Rule
        = true ∧
      (matchStep ops pool a).2.wasMoved =
        decide ((matchStep ops pool a).2.after.SourcePath ≠
          (matchStep ops pool a).2.before.SourcePath) := by
  cases hf : pool.find? (identical ops a) with
  | some b =>
    rw [matchStep_of_find_some ops a b pool hf]
    have hb := List.find?_some hf
    unfold identical at hb
    simp only [Bool.and_eq_true, decide_eq_true_eq] at hb
    intro _
    exact ⟨rfl, hb.1, hb.2, rfl⟩
  | none =>
    rw [matchStep_of_find_none ops a pool hf]
    rcases pool.filter (fun e => nameMatches ops (ops.Name a.Rule) (ops.Typ a.Rule) e)
      with _ | ⟨b, _ | ⟨c, rest⟩⟩ <;> simp

theorem matchEntries_self (ops : RuleOps R T) (hrefl : ∀ r : R, ops.IsIdentical r r = true) :
    ∀ entries : List (Entry R), (∀ e ∈ entries, ops.Name e.Rule ≠ "") →
      matchEntries ops entries entries =
        entries.map (fun e =>
          { before := e, after := e, hasBefore := true, hasAfter := true,
            isIdentical := true, wasMoved := false }) := by
  intro entries
  induction entries with
  | nil => intro _; rw [matchEntries_nil]; rfl
  | cons e rest ih =>
    intro hname
    have hp : identical ops e e = true := by
      simp [identical, hname e (List.mem_cons_self _ _), hrefl]
    have hf : (e :: rest).find? (identical ops e) = some e := by
      simp [List.find?_cons, hp]
    rw [matchEntries_cons, matchStep_of_find_some ops e e (e :: rest) hf]
    simp only [List.eraseP_cons, hp, cond_true, List.map_cons]
    rw [ih (fun x hx => hname x (List.mem_cons_of_mem _ hx))]
    simp

theorem matchStep_sublist_of_not_ambiguous (ops : RuleOps R T) (a : Entry R)
    (before : List (Entry R)) (h : ambiguousStep ops before a = false) :
    (matchStep ops before a).1.Sublist before := by
  cases hf : before.find? (identical ops a) with
  | some b =>
    rw [matchStep_of_find_some ops a b before hf]
    exact List.eraseP_sublist before
  | none =>
    apply matchStep_sublist
    unfold ambiguousStep at h
    simp only [identityScan_eq, hf] at h
    rw [findRulesByName_eq] at h
    simp only [Bool.not_false, Bool.true_and, decide_eq_false_iff_not, not_le] at h
    omega

theorem leftovers_sublist_of_not_ambiguous (ops : RuleOps R T) :
    ∀ (after before : List (Entry R)), ambiguousRun ops before after = false →
      (leftovers ops before after).Sublist before := by
  intro after
  induction after with
  | nil => intro before _; rw [leftovers_nil]
  | cons a rest ih =>
    intro before h
    unfold ambiguousRun at h
    rw [Bool.or_eq_false_iff] at h
    rw [leftovers_cons]
    exact (ih _ h.2).trans (matchStep_sublist_of_not_ambiguous ops a before h.1)

theorem matchEntries_append (ops : RuleOps R T) :
    ∀ (pre pool rest : List (Entry R)),
      matchEntries ops pool (pre ++ rest) =
        (matchLoop ops pool [] pre).2 ++ matchEntries ops (matchLoop ops pool [] pre).1 rest := by
  intro pre
  induction pre with
  | nil => intro pool rest; simp [matchLoop]
  | cons a pre ih =>
    intro pool rest
    rw [List.cons_append, matchEntries_cons, ih, matchLoop_cons, List.nil_append,
      matchLoop_acc ops pre _ [(matchStep ops pool a).2]]
    simp

theorem matchLoop_records (ops : RuleOps R T) :
    ∀ (pre pool : List (Entry R)),
      (matchLoop ops pool [] pre).2.length = pre.length ∧
        ∀ m ∈ (matchLoop ops pool [] pre).2, m.hasAfter = true := by
  intro pre
  induction pre with
  | nil => intro pool; simp [matchLoop]
  | cons a pre ih =>
    intro pool
    rw [matchLoop_cons, List.nil_append, matchLoop_acc ops pre _ [(matchStep ops pool a).2]]
    obtain ⟨h1, h2⟩ := ih (matchStep ops pool a).1
    refine ⟨by simp [h1], ?_⟩
    intro m hm
    simp only [List.nil_append, List.singleton_append, List.mem_cons] at hm
    rcases hm with h | h
    · rw [h]; exact (matchStep_after ops a pool).2
    · exact h2 m h

end Lemmas

/-! ## The claims -/

section Claims

set_option linter.unusedSectionVars false

variable {R T : Type} [DecidableEq T]

/-- C2 (amended): let `a` be an after entry with a non-empty name that is
content-identical to exactly one entry `b` of `before` (`before = front ++ b :: back`,
nothing in `front` or `back` identical to `a`), at a different path, and let `b`
still be in the pool when `a` is processed (the pool that the outer loop leaves
after the entries `pre` that precede `a`). Then the record of `a` (at `a`'s index)
pairs `a` with `b` as identical and moved, the classifier makes it Moved with the
lines of the whole after file, and no before-only record (hence no Removed
record) carries `b`. -/
theorem identity_pass_priority (ops : RuleOps R T) (modifiedLines afterLines : List Int)
    (front back pre post : List (Entry R)) (a b : Entry R)
    (hname : ops.Name a.Rule ≠ "")
    (hid : ops.IsIdentical a.Rule b.Rule = true)
    (hpath : a.SourcePath ≠ b.SourcePath)
    (huniq : ∀ x ∈ front ++ back, ops.IsIdentical a.Rule x.Rule = false)
    (hpool : b ∈ (matchLoop ops (front ++ b :: back) [] pre).1) :
    (matchEntries ops (front ++ b :: back) (pre ++ a :: post))[pre.length]? =
      some { before := b, after := a, hasBefore := true, hasAfter := true,
             isIdentical := true, wasMoved := true } ∧
    (classifyAll modifiedLines afterLines []
        (matchEntries ops (front ++ b :: back) (pre ++ a :: post)))[pre.length]? =
      some { a with State := ChangeType.Moved, ModifiedLines := afterLines } ∧
    (∀ m ∈ matchEntries ops (front ++ b :: back) (pre ++ a :: post),
      m.hasAfter = false → m.before ≠ b) := by
  have hb : identical ops a b = true := by simp [identical, hname, hid]
  have hset : ∀ x ∈ front ++ b :: back, identical ops a x = true → x = b := by
    intro x hx hx'
    rcases List.mem_append.1 hx with h | h
    · have := huniq x (List.mem_append_left _ h)
      simp [identical, this] at hx'
    · rcases List.mem_cons.1 h with h | h
      · exact h
      · have := huniq x (List.mem_append_right _ h)
        simp [identical, this] at hx'
  have hcount : (front ++ b :: back).countP (identical ops a) ≤ 1 := by
    have h1 : front.countP (identical ops a) = 0 := by
      rw [List.countP_eq_zero]
      intro x hx
      simp [identical, huniq x (List.mem_append_left _ hx)]
    have h2 : back.countP (identical ops a) = 0 := by
      rw [List.countP_eq_zero]
      intro x hx
      simp [identical, huniq x (List.mem_append_right _ hx)]
    simp [List.countP_append, List.countP_cons, h1, h2, hb]
  have hsub : (matchLoop ops (front ++ b :: back) [] pre).1.Subperm (front ++ b :: back) := by
    rw [← leftovers_eq_pool]
    exact leftovers_subperm ops pre _
  obtain ⟨h1, h2⟩ := identity_pass_core ops (front ++ b :: back) post a b hb hpath hset hcount []
    (matchLoop ops (front ++ b :: back) [] pre).1 hpool hsub (by simp)
  obtain ⟨hlen, hafter⟩ := matchLoop_records ops pre (front ++ b :: back)
  have hrec : (matchEntries ops (front ++ b :: back) (pre ++ a :: post))[pre.length]? =
      some { before := b, after := a, hasBefore := true, hasAfter := true,
             isIdentical := true, wasMoved := true } := by
    rw [matchEntries_append, List.getElem?_append_right (by omega), hlen, Nat.sub_self]
    simpa using h1
  refine ⟨hrec, ?_, ?_⟩
  · rw [classifyAll_eq, List.nil_append, List.getElem?_map, hrec]
    simp [classify]
  · intro m hm hfalse
    rw [matchEntries_append] at hm
    rcases List.mem_append.1 hm with h | h
    · rw [hafter m h] at hfalse; cases hfalse
    · exact h2 m (by simpa using h) hfalse

/-- C2, witness: a file renamed from `old.yml` to `new.yml` with two rules of the
same name; the first after entry is paired with its own copy and leaves `b`. -/
theorem identity_pass_priority_witness :
    (matchEntries sampleOps
        ([] ++ sampleEntry "old.yml" "x" 1 20 [2] :: [sampleEntry "old.yml" "x" 1 10 [1]])
        ([sampleEntry "new.yml" "x" 1 10 [1]] ++ sampleEntry "new.yml" "x" 1 20 [2] :: []))[
          [sampleEntry "new.yml" "x" 1 10 [1]].length]? =
      some { before := sampleEntry "old.yml" "x" 1 20 [2],
             after := sampleEntry "new.yml" "x" 1 20 [2],
             hasBefore := true, hasAfter := true, isIdentical := true, wasMoved := true } ∧
    (classifyAll [1, 2] [1, 2, 3] []
        (matchEntries sampleOps
          ([] ++ sampleEntry "old.yml" "x" 1 20 [2] :: [sampleEntry "old.yml" "x" 1 10 [1]])
          ([sampleEntry "new.yml" "x" 1 10 [1]] ++ sampleEntry "new.yml" "x" 1 20 [2] :: [])))[
          [sampleEntry "new.yml" "x" 1 10 [1]].length]? =
      some { sampleEntry "new.yml" "x" 1 20 [2] with
             State := ChangeType.Moved, ModifiedLines := [1, 2, 3] } ∧
    (∀ m ∈ matchEntries sampleOps
        ([] ++ sampleEntry "old.yml" "x" 1 20 [2] :: [sampleEntry "old.yml" "x" 1 10 [1]])
        ([sampleEntry "new.yml" "x" 1 10 [1]] ++ sampleEntry "new.yml" "x" 1 20 [2] :: []),
      m.hasAfter = false → m.before ≠ sampleEntry "old.yml" "x" 1 20 [2]) :=
  identity_pass_priority sampleOps [1, 2] [1, 2, 3]
    [] [sampleEntry "old.yml" "x" 1 10 [1]] [sampleEntry "new.yml" "x" 1 10 [1]] []
    (sampleEntry "new.yml" "x" 1 20 [2]) (sampleEntry "old.yml" "x" 1 20 [2])
    (by decide) (by decide) (by decide) (by decide) (by decide)

/-- C2, counterexample: `before` holds one rule `x`; `after` holds a changed `x`
followed by a copy `a` of the old `x`. `a` has a name, is identical to exactly one
before entry, at a different path, yet the name pass of the first after entry has
consumed that entry: the record of `a` is Added and no record is Moved; the
entry is no longer in the pool when `a` is processed. -/
theorem identity_pass_priority_counterexample :
    sampleEntry "new.yml" "x" 1 1 [3] ∈
      [sampleEntry "new.yml" "x" 1 2 [1], sampleEntry "new.yml" "x" 1 1 [3]] ∧
    sampleOps.Name (sampleEntry "new.yml" "x" 1 1 [3]).Rule ≠ "" ∧
    sampleOps.IsIdentical (sampleEntry "new.yml" "x" 1 1 [3]).Rule
      (sampleEntry "old.yml" "x" 1 1 [1]).Rule = true ∧
    (sampleEntry "new.yml" "x" 1 1 [3]).SourcePath ≠
      (sampleEntry "old.yml" "x" 1 1 [1]).SourcePath ∧
    classifyAll [1, 3] [1, 2, 3, 4] []
        (matchEntries sampleOps [sampleEntry "old.yml" "x" 1 1 [1]]
          [sampleEntry "new.yml" "x" 1 2 [1], sampleEntry "new.yml" "x" 1 1 [3]]) =
      [{ SourcePath := "new.yml", Rule := { name := "x", kind := 1, expr := 2 },
         State := ChangeType.Modified, ModifiedLines := [1], PathError := none },
       { SourcePath := "new.yml", Rule := { name := "x", kind := 1, expr := 1 },
         State := ChangeType.Added, ModifiedLines := [3], PathError := none }] ∧
    sampleEntry "old.yml" "x" 1 1 [1] ∉
      (matchLoop sampleOps [sampleEntry "old.yml" "x" 1 1 [1]] []
        [sampleEntry "new.yml" "x" 1 2 [1]]).1 := by
  decide

/-- C3 (amended): for a before list holding one rule `b` and an after list holding
one anonymous (empty-name) rule `a`, whatever `IsIdentical` says and whatever the
paths, `matchEntries` never pairs the two through the identity pass (no record is
identical or moved), but the name pass does pair them when `b` has no path error,
the type of `a` and an empty name: the classifier then yields the single record
of `a` as Modified; otherwise it yields `a` as Added followed by `b` as Removed. -/
theorem anonymous_rules_name_pass (ops : RuleOps R T) (modifiedLines afterLines : List Int)
    (b a : Entry R) (ha : ops.Name a.Rule = "") :
    (∀ me ∈ matchEntries ops [b] [a], me.isIdentical = false ∧ me.wasMoved = false) ∧
    classifyAll modifiedLines afterLines [] (matchEntries ops [b] [a]) =
      if nameMatches ops "" (ops.Typ a.Rule) b then
        [{ a with
           State := ChangeType.Modified,
           ModifiedLines := commonLines modifiedLines a.ModifiedLines }]
      else
        [{ a with
           State := ChangeType.Added,
           ModifiedLines := commonLines modifiedLines a.ModifiedLines },
         { b with State := ChangeType.Removed }] := by
  have hfind : [b].find? (identical ops a) = none := by
    simp [identical, ha]
  rw [classifyAll_eq, matchEntries_cons, matchEntries_nil, matchStep_of_find_none ops a [b] hfind,
    ha]
  by_cases hn : nameMatches ops "" (ops.Typ a.Rule) b = true
  · simp [hn, classify]
  · simp [hn, classify, beforeOnly]

/-- C3, witness: two identical anonymous rules of the same type. -/
theorem anonymous_rules_name_pass_witness :
    (∀ me ∈ matchEntries sampleOps [sampleEntry "old.yml" "" 0 7 [1]]
        [sampleEntry "new.yml" "" 0 7 [1]], me.isIdentical = false ∧ me.wasMoved = false) ∧
    classifyAll [1, 2] [1, 2, 3] []
        (matchEntries sampleOps [sampleEntry "old.yml" "" 0 7 [1]]
          [sampleEntry "new.yml" "" 0 7 [1]]) =
      if nameMatches sampleOps "" (sampleOps.Typ (sampleEntry "new.yml" "" 0 7 [1]).Rule)
          (sampleEntry "old.yml" "" 0 7 [1]) then
        [{ sampleEntry "new.yml" "" 0 7 [1] with
           State := ChangeType.Modified,
           ModifiedLines := commonLines [1, 2] (sampleEntry "new.yml" "" 0 7 [1]).ModifiedLines }]
      else
        [{ sampleEntry "new.yml" "" 0 7 [1] with
           State := ChangeType.Added,
           ModifiedLines := commonLines [1, 2] (sampleEntry "new.yml" "" 0 7 [1]).ModifiedLines },
         { sampleEntry "old.yml" "" 0 7 [1] with State := ChangeType.Removed }] :=
  anonymous_rules_name_pass sampleOps [1, 2] [1, 2, 3] (sampleEntry "old.yml" "" 0 7 [1])
    (sampleEntry "new.yml" "" 0 7 [1]) (by decide)

/-- C3, counterexample: two content-identical anonymous rules at different paths
are paired by the name pass and give one Modified record, not Removed and Added. -/
theorem anonymous_rules_counterexample :
    sampleOps.Name (sampleEntry "old.yml" "" 0 7 [1]).Rule = "" ∧
    sampleOps.Name (sampleEntry "new.yml" "" 0 7 [1]).Rule = "" ∧
    sampleOps.IsIdentical (sampleEntry "new.yml" "" 0 7 [1]).Rule
      (sampleEntry "old.yml" "" 0 7 [1]).Rule = true ∧
    (sampleEntry "new.yml" "" 0 7 [1]).SourcePath ≠ (sampleEntry "old.yml" "" 0 7 [1]).SourcePath ∧
    matchEntries sampleOps [sampleEntry "old.yml" "" 0 7 [1]] [sampleEntry "new.yml" "" 0 7 [1]] =
      [{ before := sampleEntry "old.yml" "" 0 7 [1], after := sampleEntry "new.yml" "" 0 7 [1],
         hasBefore := true, hasAfter := true, isIdentical := false, wasMoved := false }] ∧
    classifyAll [1, 2] [1, 2, 3] []
        (matchEntries sampleOps [sampleEntry "old.yml" "" 0 7 [1]]
          [sampleEntry "new.yml" "" 0 7 [1]]) =
      [{ SourcePath := "new.yml", Rule := { name := "", kind := 0, expr := 7 },
         State := ChangeType.Modified, ModifiedLines := [1], PathError := none }] := by
  decide

/-- C4: when the identity pass finds no match for `a` in the pool `before` and
`findRulesByName` returns two or more candidates, the record of `a` is unpaired
and the next iterations run on `nomatch ++ match`, a permutation of `before`:
nothing is consumed. -/
theorem ambiguity_safety (ops : RuleOps R T) (before rest : List (Entry R)) (a : Entry R)
    (hid : ∀ b ∈ before, identical ops a b = false)
    (hamb : 2 ≤ (findRulesByName ops before (ops.Name a.Rule) (ops.Typ a.Rule)).2.length) :
    ((findRulesByName ops before (ops.Name a.Rule) (ops.Typ a.Rule)).1 ++
        (findRulesByName ops before (ops.Name a.Rule) (ops.Typ a.Rule)).2).Perm before ∧
    matchEntries ops before (a :: rest) =
      { before := Entry.zero ops, after := a, hasBefore := false, hasAfter := true,
        isIdentical := false, wasMoved := false } ::
      matchEntries ops
        ((findRulesByName ops before (ops.Name a.Rule) (ops.Typ a.Rule)).1 ++
          (findRulesByName ops before (ops.Name a.Rule) (ops.Typ a.Rule)).2) rest := by
  have hfind : before.find? (identical ops a) = none := by
    rw [List.find?_eq_none]
    intro b hb
    simp [hid b hb]
  rw [findRulesByName_eq] at hamb ⊢
  refine ⟨List.perm_append_comm.trans (List.filter_append_perm _ before), ?_⟩
  rw [matchEntries_cons, matchStep_of_find_none ops a before hfind]
  simp only at hamb ⊢
  rcases hm : before.filter (fun e => nameMatches ops (ops.Name a.Rule) (ops.Typ a.Rule) e)
    with _ | ⟨b, _ | ⟨c, rest'⟩⟩
  · rw [hm] at hamb; simp at hamb
  · rw [hm] at hamb; simp at hamb
  · rfl

/-- C4, witness: two before rules named `x`, neither identical to the after rule `x`. -/
theorem ambiguity_safety_witness :
    ((findRulesByName sampleOps
          [sampleEntry "r.yml" "x" 1 1 [1], sampleEntry "r.yml" "y" 1 2 [2],
            sampleEntry "r.yml" "x" 1 3 [3]] "x" 1).1 ++
        (findRulesByName sampleOps
          [sampleEntry "r.yml" "x" 1 1 [1], sampleEntry "r.yml" "y" 1 2 [2],
            sampleEntry "r.yml" "x" 1 3 [3]] "x" 1).2).Perm
      [sampleEntry "r.yml" "x" 1 1 [1], sampleEntry "r.yml" "y" 1 2 [2],
        sampleEntry "r.yml" "x" 1 3 [3]] ∧
    matchEntries sampleOps
        [sampleEntry "r.yml" "x" 1 1 [1], sampleEntry "r.yml" "y" 1 2 [2],
          sampleEntry "r.yml" "x" 1 3 [3]]
        (sampleEntry "r.yml" "x" 1 4 [1] :: [sampleEntry "r.yml" "y" 1 2 [2]]) =
      { before := Entry.zero sampleOps, after := sampleEntry "r.yml" "x" 1 4 [1],
        hasBefore := false, hasAfter := true, isIdentical := false, wasMoved := false } ::
      matchEntries sampleOps
        ((findRulesByName sampleOps
            [sampleEntry "r.yml" "x" 1 1 [1], sampleEntry "r.yml" "y" 1 2 [2],
              sampleEntry "r.yml" "x" 1 3 [3]] "x" 1).1 ++
          (findRulesByName sampleOps
            [sampleEntry "r.yml" "x" 1 1 [1], sampleEntry "r.yml" "y" 1 2 [2],
              sampleEntry "r.yml" "x" 1 3 [3]] "x" 1).2)
        [sampleEntry "r.yml" "y" 1 2 [2]] :=
  ambiguity_safety sampleOps
    [sampleEntry "r.yml" "x" 1 1 [1], sampleEntry "r.yml" "y" 1 2 [2],
      sampleEntry "r.yml" "x" 1 3 [3]]
    [sampleEntry "r.yml" "y" 1 2 [2]] (sampleEntry "r.yml" "x" 1 4 [1]) (by decide) (by decide)

/-- C5: the result of `matchEntries` has at least `len(after)` records; the first
`len(after)` have `hasAfter` and carry the after entries in input order; every
record past them is before-only (`hasBefore`, no `hasAfter`). -/
theorem matchEntries_result_order (ops : RuleOps R T) :
    ∀ (after before : List (Entry R)),
      after.length ≤ (matchEntries ops before after).length ∧
      ((matchEntries ops before after).take after.length).map (fun m => m.after) = after ∧
      (∀ m ∈ (matchEntries ops before after).take after.length, m.hasAfter = true) ∧
      (∀ m ∈ (matchEntries ops before after).drop after.length,
        m.hasBefore = true ∧ m.hasAfter = false) := by
  intro after
  induction after with
  | nil =>
    intro before
    rw [matchEntries_nil]
    refine ⟨by simp, by simp, by simp, ?_⟩
    intro m hm
    simp only [List.length_nil, List.drop_zero, List.mem_map] at hm
    obtain ⟨b, _, rfl⟩ := hm
    simp [beforeOnly]
  | cons a rest ih =>
    intro before
    obtain ⟨h1, h2, h3, h4⟩ := ih (matchStep ops before a).1
    obtain ⟨ha, ht⟩ := matchStep_after ops a before
    rw [matchEntries_cons]
    refine ⟨by simpa using h1, ?_, ?_, ?_⟩
    · simp [List.take_succ_cons, h2, ha]
    · intro m hm
      simp only [List.length_cons, List.take_succ_cons, List.mem_cons] at hm
      rcases hm with h | h
      · rw [h]; exact ht
      · exact h3 m h
    · intro m hm
      simp only [List.length_cons, List.drop_succ_cons] at hm
      exact h4 m hm

/-- C6 (amended): the leftover before-only results are the pool left by the outer
loop, in pool order; they are a sub-multiset of `before` (a permutation of a
sublist), and they keep the relative order of `before` when no iteration of the
outer loop takes the ambiguous case (no identity match and two or more name
candidates in the pool of that iteration). -/
theorem leftovers_order (ops : RuleOps R T) (before after : List (Entry R)) :
    leftovers ops before after = (matchLoop ops before [] after).1 ∧
    (leftovers ops before after).Subperm before ∧
    (ambiguousRun ops before after = false → (leftovers ops before after).Sublist before) :=
  ⟨leftovers_eq_pool ops after before, leftovers_subperm ops after before,
    leftovers_sublist_of_not_ambiguous ops after before⟩

/-- C6, counterexample: the after rule `x` has two name candidates and no
identical one; the candidates are put back behind `y`. -/
theorem leftovers_order_counterexample :
    ambiguousRun sampleOps
        [sampleEntry "r.yml" "x" 1 1 [1], sampleEntry "r.yml" "y" 1 2 [2],
          sampleEntry "r.yml" "x" 1 3 [3]]
        [sampleEntry "r.yml" "x" 1 4 [1]] = true ∧
    leftovers sampleOps
        [sampleEntry "r.yml" "x" 1 1 [1], sampleEntry "r.yml" "y" 1 2 [2],
          sampleEntry "r.yml" "x" 1 3 [3]]
        [sampleEntry "r.yml" "x" 1 4 [1]] =
      [sampleEntry "r.yml" "y" 1 2 [2], sampleEntry "r.yml" "x" 1 1 [1],
        sampleEntry "r.yml" "x" 1 3 [3]] ∧
    ¬ (leftovers sampleOps
        [sampleEntry "r.yml" "x" 1 1 [1], sampleEntry "r.yml" "y" 1 2 [2],
          sampleEntry "r.yml" "x" 1 3 [3]]
        [sampleEntry "r.yml" "x" 1 4 [1]]).Sublist
      [sampleEntry "r.yml" "x" 1 1 [1], sampleEntry "r.yml" "y" 1 2 [2],
        sampleEntry "r.yml" "x" 1 3 [3]] := by
  decide

/-- C6, witness: two before rules share a name, each is taken by the identity
pass, and the leftover keeps its place. -/
theorem leftovers_order_witness :
    ambiguousRun sampleOps
        [sampleEntry "old.yml" "x" 1 10 [1], sampleEntry "old.yml" "z" 1 3 [2],
          sampleEntry "old.yml" "x" 1 20 [3]]
        [sampleEntry "new.yml" "x" 1 10 [1], sampleEntry "new.yml" "x" 1 20 [3]] = false ∧
    leftovers sampleOps
        [sampleEntry "old.yml" "x" 1 10 [1], sampleEntry "old.yml" "z" 1 3 [2],
          sampleEntry "old.yml" "x" 1 20 [3]]
        [sampleEntry "new.yml" "x" 1 10 [1], sampleEntry "new.yml" "x" 1 20 [3]] =
      [sampleEntry "old.yml" "z" 1 3 [2]] ∧
    (leftovers sampleOps
        [sampleEntry "old.yml" "x" 1 10 [1], sampleEntry "old.yml" "z" 1 3 [2],
          sampleEntry "old.yml" "x" 1 20 [3]]
        [sampleEntry "new.yml" "x" 1 10 [1], sampleEntry "new.yml" "x" 1 20 [3]]).Sublist
      [sampleEntry "old.yml" "x" 1 10 [1], sampleEntry "old.yml" "z" 1 3 [2],
        sampleEntry "old.yml" "x" 1 20 [3]] :=
  ⟨by decide, by decide,
    (leftovers_order sampleOps
      [sampleEntry "old.yml" "x" 1 10 [1], sampleEntry "old.yml" "z" 1 3 [2],
        sampleEntry "old.yml" "x" 1 20 [3]]
      [sampleEntry "new.yml" "x" 1 10 [1], sampleEntry "new.yml" "x" 1 20 [3]]).2.2
      (by decide)⟩

/-- C7: a record of `matchEntries` that the classifier puts in state Added or
Modified carries an entry of `after`, and its final `ModifiedLines` are
`commonLines` of the file's modified lines and the entry's parse-time lines: a
subset of both. -/
theorem added_modified_lines_subset (ops : RuleOps R T) (modifiedLines afterLines : List Int)
    (before after : List (Entry R)) (me : matchedEntry R)
    (hme : me ∈ matchEntries ops before after)
    (hstate : (classify modifiedLines afterLines me).State = ChangeType.Added ∨
      (classify modifiedLines afterLines me).State = ChangeType.Modified) :
    me.after ∈ after ∧
    (classify modifiedLines afterLines me).ModifiedLines =
      commonLines modifiedLines me.after.ModifiedLines ∧
    (∀ x ∈ (classify modifiedLines afterLines me).ModifiedLines,
      x ∈ modifiedLines ∧ x ∈ me.after.ModifiedLines) := by
  obtain ⟨_, hany⟩ := matchEntries_flags ops before after me hme
  have hafter := matchEntries_after_mem ops after before me hme
  have key : me.hasAfter = true ∧ (classify modifiedLines afterLines me).ModifiedLines =
      commonLines modifiedLines me.after.ModifiedLines := by
    rcases me with ⟨mb, ma, hb, ha, hi, hw⟩
    cases hb <;> cases ha <;> cases hi <;> cases hw <;> simp_all [classify]
  refine ⟨hafter key.1, key.2, ?_⟩
  intro x hx
  rw [key.2] at hx
  exact mem_commonLines hx

/-- C7, witness: a modified rule on lines 1 to 3 of a file whose diff touches
lines 2, 3 and 9. -/
theorem added_modified_lines_subset_witness :
    ({ before := sampleEntry "r.yml" "x" 1 1 [1, 2], after := sampleEntry "r.yml" "x" 1 4 [1, 2, 3],
       hasBefore := true, hasAfter := true, isIdentical := false, wasMoved := false } :
      matchedEntry SampleRule) ∈
      matchEntries sampleOps [sampleEntry "r.yml" "x" 1 1 [1, 2]]
        [sampleEntry "r.yml" "x" 1 4 [1, 2, 3]] ∧
    (classify [2, 3, 9] [1, 2, 3, 4]
        { before := sampleEntry "r.yml" "x" 1 1 [1, 2],
          after := sampleEntry "r.yml" "x" 1 4 [1, 2, 3],
          hasBefore := true, hasAfter := true, isIdentical := false,
          wasMoved := false }).State = ChangeType.Modified ∧
    (∀ x ∈ (classify [2, 3, 9] [1, 2, 3, 4]
        { before := sampleEntry "r.yml" "x" 1 1 [1, 2],
          after := sampleEntry "r.yml" "x" 1 4 [1, 2, 3],
          hasBefore := true, hasAfter := true, isIdentical := false,
          wasMoved := false }).ModifiedLines,
      x ∈ [2, 3, 9] ∧ x ∈ (sampleEntry "r.yml" "x" 1 4 [1, 2, 3]).ModifiedLines) :=
  ⟨by decide, by decide,
    (added_modified_lines_subset sampleOps [2, 3, 9] [1, 2, 3, 4]
      [sampleEntry "r.yml" "x" 1 1 [1, 2]] [sampleEntry "r.yml" "x" 1 4 [1, 2, 3]]
      { before := sampleEntry "r.yml" "x" 1 1 [1, 2],
        after := sampleEntry "r.yml" "x" 1 4 [1, 2, 3],
        hasBefore := true, hasAfter := true, isIdentical := false, wasMoved := false }
      (by decide) (by decide)).2.2⟩

/-- C8: every entry emitted by `matchEntries` followed by the classifier whose
state is Excluded has empty `ModifiedLines`. -/
theorem excluded_lines_empty (ops : RuleOps R T) (modifiedLines afterLines : List Int)
    (before after : List (Entry R)) :
    ∀ e ∈ classifyAll modifiedLines afterLines [] (matchEntries ops before after),
      e.State = ChangeType.Excluded → e.ModifiedLines = [] := by
  intro e he hstate
  rw [classifyAll_eq, List.nil_append] at he
  obtain ⟨me, hme, rfl⟩ := List.mem_map.1 he
  obtain ⟨_, hany⟩ := matchEntries_flags ops before after me hme
  rcases me with ⟨mb, ma, hb, ha, hi, hw⟩
  cases hb <;> cases ha <;> cases hi <;> cases hw <;> simp_all [classify]

/-- C8, witness: an unchanged rule that carried the lines 1 and 2 at parse time. -/
theorem excluded_lines_empty_witness :
    classify [1, 2] [1, 2, 3]
        { before := sampleEntry "r.yml" "x" 1 1 [1, 2], after := sampleEntry "r.yml" "x" 1 1 [1, 2],
          hasBefore := true, hasAfter := true, isIdentical := true, wasMoved := false } ∈
      classifyAll [1, 2] [1, 2, 3] []
        (matchEntries sampleOps [sampleEntry "r.yml" "x" 1 1 [1, 2]]
          [sampleEntry "r.yml" "x" 1 1 [1, 2]]) ∧
    (classify [1, 2] [1, 2, 3]
        { before := sampleEntry "r.yml" "x" 1 1 [1, 2], after := sampleEntry "r.yml" "x" 1 1 [1, 2],
          hasBefore := true, hasAfter := true, isIdentical := true,
          wasMoved := false }).State = ChangeType.Excluded ∧
    (classify [1, 2] [1, 2, 3]
        { before := sampleEntry "r.yml" "x" 1 1 [1, 2], after := sampleEntry "r.yml" "x" 1 1 [1, 2],
          hasBefore := true, hasAfter := true, isIdentical := true,
          wasMoved := false }).ModifiedLines = [] :=
  ⟨by decide, by decide,
    excluded_lines_empty sampleOps [1, 2] [1, 2, 3]
      [sampleEntry "r.yml" "x" 1 1 [1, 2]] [sampleEntry "r.yml" "x" 1 1 [1, 2]]
      (classify [1, 2] [1, 2, 3]
        { before := sampleEntry "r.yml" "x" 1 1 [1, 2], after := sampleEntry "r.yml" "x" 1 1 [1, 2],
          hasBefore := true, hasAfter := true, isIdentical := true, wasMoved := false })
      (by decide) (by decide)⟩

/-- C9: `isPathAllowed` is true when no include and no exclude pattern is
configured; otherwise it is true exactly when no exclude pattern matches the
path and some include pattern matches it. -/
theorem isPathAllowed_iff (f : GitBranchFinder) (path : String) :
    (f.includes = [] ∧ f.excludes = [] → f.isPathAllowed path = true) ∧
    (¬ (f.includes = [] ∧ f.excludes = []) →
      (f.isPathAllowed path = true ↔
        (∀ p ∈ f.excludes, p.MatchString path = false) ∧
          ∃ p ∈ f.includes, p.MatchString path = true)) := by
  constructor
  · rintro ⟨hi, he⟩
    simp [GitBranchFinder.isPathAllowed, hi, he]
  · intro hne
    have hne' : ¬ (f.includes.length = 0 ∧ f.excludes.length = 0) := by
      simpa [List.length_eq_zero] using hne
    unfold GitBranchFinder.isPathAllowed
    rw [if_neg hne']
    by_cases hex : firstMatch path f.excludes = true
    · rw [if_pos hex]
      obtain ⟨p, hp, hm⟩ := (firstMatch_eq_true path f.excludes).1 hex
      constructor
      · intro h; cases h
      · rintro ⟨hall, _⟩
        rw [hall p hp] at hm; cases hm
    · rw [if_neg hex]
      have hall : ∀ p ∈ f.excludes, p.MatchString path = false := by
        intro p hp
        by_contra hc
        exact hex ((firstMatch_eq_true path f.excludes).2 ⟨p, hp, by simpa using hc⟩)
      by_cases hin : firstMatch path f.includes = true
      · rw [if_pos hin]
        exact ⟨fun _ => ⟨hall, (firstMatch_eq_true path f.includes).1 hin⟩, fun _ => rfl⟩
      · rw [if_neg hin]
        constructor
        · intro h; cases h
        · rintro ⟨_, hinc⟩
          exact absurd ((firstMatch_eq_true path f.includes).2 hinc) hin

/-- C9, witness: the exclude pattern wins for `rules/a.bak`, `rules/a.yml` is
allowed, `other/a.yml` matches no include pattern. -/
theorem isPathAllowed_iff_witness :
    sampleFinder.isPathAllowed "rules/a.bak" = false ∧
    sampleFinder.isPathAllowed "rules/a.yml" = true ∧
    sampleFinder.isPathAllowed "other/a.yml" = false ∧
    (sampleFinder.isPathAllowed "rules/a.yml" = true ↔
      (∀ p ∈ sampleFinder.excludes, p.MatchString "rules/a.yml" = false) ∧
        ∃ p ∈ sampleFinder.includes, p.MatchString "rules/a.yml" = true) :=
  ⟨by decide, by decide, by decide,
    (isPathAllowed_iff sampleFinder "rules/a.yml").2 (by simp [sampleFinder])⟩

/-- C10: when the commit range and the change list are obtained, the commit count
is within `maxCommits`, every message fetch of a touched commit succeeds and some
touched commit's message contains `[skip ci]` or `[no ci]`, `Find` returns no
entries and no error, for every finder configuration and change list. The map
iteration visits exactly the keys of the map (`hkeys`). -/
theorem find_skip_marker (ops : RuleOps R T) (c : Collaborators R) (f : GitBranchFinder)
    (cr : CommitRangeResults) (changes : List FileChange)
    (hkeys : ∀ keys commit, commit ∈ c.mapKeys keys ↔ commit ∈ keys)
    (hcr : c.CommitRange f.baseBranch = Except.ok cr)
    (hmax : (cr.Commits.length : Int) ≤ f.maxCommits)
    (hch : c.Changes cr = Except.ok changes)
    (hmsg : ∀ change ∈ changes, ∀ commit ∈ change.Commits,
      ∃ msg, c.CommitMessage commit = Except.ok msg)
    (hmark : ∃ change ∈ changes, ∃ commit ∈ change.Commits, ∃ msg,
      c.CommitMessage commit = Except.ok msg ∧
        (stringsContains msg "[skip ci]" = true ∨ stringsContains msg "[no ci]" = true)) :
    f.Find ops c = ([], none) := by
  have hskip : shouldSkipAllChecks c changes = (true, none) := by
    unfold shouldSkipAllChecks
    apply skipLoop_marker
    · intro k hk
      obtain ⟨change, hchange, hc⟩ := (mem_collectCommits k changes).1 ((hkeys _ k).1 hk)
      exact hmsg change hchange k hc
    · obtain ⟨change, hchange, commit, hcommit, msg, h1, h2⟩ := hmark
      exact ⟨commit, (hkeys _ commit).2 ((mem_collectCommits commit changes).2
        ⟨change, hchange, hcommit⟩), msg, h1, h2⟩
  unfold GitBranchFinder.Find
  rw [hcr]
  simp only [not_lt.2 hmax, if_false, hch, hskip, if_true]

/-- C10, witness: the second of two commits carries `[skip ci]`. -/
theorem find_skip_marker_witness :
    sampleFinder.Find sampleOps sampleCollaborators = ([], none) :=
  find_skip_marker sampleOps sampleCollaborators sampleFinder
    { From := "c1", To := "c2", Commits := ["c1", "c2"] } [sampleChange]
    (by intro keys commit; exact List.mem_reverse)
    rfl (by decide) rfl
    (by
      intro change hchange commit hcommit
      rw [List.mem_singleton.1 hchange] at hcommit
      rcases List.mem_cons.1 hcommit with h | h
      · exact ⟨"add rule", by rw [h]; rfl⟩
      · exact ⟨"fix typo [skip ci]", by rw [List.mem_singleton.1 h]; rfl⟩)
    ⟨sampleChange, List.mem_singleton_self _, "c2", by decide, "fix typo [skip ci]", rfl,
      Or.inl (by decide)⟩
/-- C11: with the commit range resolved to `cr`, when `len(cr.Commits)` is
strictly above `maxCommits`, `Find` returns no entries and the commit volume
error, whatever the other collaborators (changes, messages, parser) would
return; when `len(cr.Commits)` is at most `maxCommits` (so also when equal) the
guard has no effect: `Find` returns what it returns for any larger `maxCommits`. -/
theorem find_commit_volume_guard (ops : RuleOps R T) (c : Collaborators R) (f : GitBranchFinder)
    (cr : CommitRangeResults) (hcr : c.CommitRange f.baseBranch = Except.ok cr) :
    ((cr.Commits.length : Int) > f.maxCommits →
      f.Find ops c = ([], some (commitVolumeError cr.Commits.length f.maxCommits)) ∧
      ∀ c' : Collaborators R, c'.CommitRange f.baseBranch = Except.ok cr →
        f.Find ops c' = f.Find ops c) ∧
    ((cr.Commits.length : Int) ≤ f.maxCommits →
      ∀ m : Int, f.maxCommits ≤ m →
        f.Find ops c = GitBranchFinder.Find ops c { f with maxCommits := m }) := by
  constructor
  · intro hgt
    have h : ∀ c' : Collaborators R, c'.CommitRange f.baseBranch = Except.ok cr →
        f.Find ops c' = ([], some (commitVolumeError cr.Commits.length f.maxCommits)) := by
      intro c' hc'
      unfold GitBranchFinder.Find
      rw [hc']
      simp only [hgt, if_true, commitVolumeError]
    exact ⟨h c hcr, fun c' hc' => (h c' hc').trans (h c hcr).symm⟩
  · intro hle m hm
    have hle' : (cr.Commits.length : Int) ≤ m := hle.trans hm
    unfold GitBranchFinder.Find
    simp only [hcr, not_lt.2 hle, not_lt.2 hle', if_false, findLoop_maxCommits,
      isPathAllowed_maxCommits]

/-- C11, witness: eleven commits against `maxCommits = 10` give the volume error;
ten commits pass the guard (the result is the one for `maxCommits = 12`, here the
parse error of `rules/b.yml`). -/
theorem find_commit_volume_guard_witness :
    sampleOpenFinder.Find sampleOps (sampleRangeCollaborators elevenCommits) =
      ([], some (commitVolumeError 11 10)) ∧
    sampleOpenFinder.Find sampleOps (sampleRangeCollaborators tenCommits) =
      GitBranchFinder.Find sampleOps (sampleRangeCollaborators tenCommits)
        { sampleOpenFinder with maxCommits := 12 } ∧
    sampleOpenFinder.Find sampleOps (sampleRangeCollaborators tenCommits) =
      ([], some "invalid file syntax: bad yaml") :=
  ⟨((find_commit_volume_guard sampleOps (sampleRangeCollaborators elevenCommits)
      sampleOpenFinder { From := "c1", To := "c2", Commits := elevenCommits } rfl).1
      (by decide)).1,
   (find_commit_volume_guard sampleOps (sampleRangeCollaborators tenCommits)
      sampleOpenFinder { From := "c1", To := "c2", Commits := tenCommits } rfl).2
      (by decide) 12 (by decide),
   by decide⟩

/-- C12: whenever `Find` returns a non-nil error, the entry list it returns is
empty. -/
theorem find_no_partial_result (ops : RuleOps R T) (c : Collaborators R) (f : GitBranchFinder)
    (herr : (f.Find ops c).2 ≠ none) : (f.Find ops c).1 = [] := by
  unfold GitBranchFinder.Find at herr ⊢
  repeat' split
  all_goals first | rfl | simp_all

/-- C12, witness: the first change alone yields an entry, the second does not
parse: `Find` returns the error and no entry. -/
theorem find_no_partial_result_witness :
    (findLoop sampleOps (sampleRangeCollaborators tenCommits) sampleOpenFinder [sampleChange]
        []).1 ≠ [] ∧
    (sampleOpenFinder.Find sampleOps (sampleRangeCollaborators tenCommits)).2 =
      some "invalid file syntax: bad yaml" ∧
    (sampleOpenFinder.Find sampleOps (sampleRangeCollaborators tenCommits)).1 = [] :=
  ⟨by decide, by decide,
    find_no_partial_result sampleOps (sampleRangeCollaborators tenCommits) sampleOpenFinder
      (by decide)⟩

/-- C13: with an empty before list the output is the after entries in input
order, each Added (with `commonLines` of the file's modified lines and its own);
with an empty after list it is the before entries in input order, each Removed
with its `ModifiedLines` unchanged. -/
theorem empty_side_classification (ops : RuleOps R T) (modifiedLines afterLines : List Int)
    (entries : List (Entry R)) :
    classifyAll modifiedLines afterLines [] (matchEntries ops [] entries) =
      entries.map (fun a =>
        { a with
          State := ChangeType.Added,
          ModifiedLines := commonLines modifiedLines a.ModifiedLines }) ∧
    classifyAll modifiedLines afterLines [] (matchEntries ops entries []) =
      entries.map (fun b => { b with State := ChangeType.Removed }) := by
  constructor
  · rw [classifyAll_eq, matchEntries_nil_before, List.nil_append, List.map_map]
    apply List.map_congr_left
    intro a _
    simp [classify]
  · rw [classifyAll_eq, matchEntries_nil, List.nil_append, List.map_map]
    apply List.map_congr_left
    intro b _
    simp [classify, beforeOnly]

/-- C14: `commonLines(a, b)` is `a` filtered by membership in `b`; its second
loop leaves the result of the first loop unchanged; an integer is in the result
exactly when it is in both `a` and `b`; an empty input gives an empty result. -/
theorem commonLines_filter (a b : List Int) :
    commonLines a b = a.filter (fun ai => decide (ai ∈ b)) ∧
    b.foldl
        (fun common bi => if a.contains bi && !common.contains bi then common ++ [bi] else common)
        (a.foldl (fun common ai => if b.contains ai then common ++ [ai] else common) []) =
      a.foldl (fun common ai => if b.contains ai then common ++ [ai] else common) [] ∧
    (∀ x : Int, x ∈ commonLines a b ↔ x ∈ a ∧ x ∈ b) ∧
    commonLines [] b = [] ∧ commonLines a [] = [] := by
  have hfilter : ∀ a b : List Int, commonLines a b = a.filter (fun ai => decide (ai ∈ b)) := by
    intro a b
    rw [commonLines_eq_filter]
    apply List.filter_congr
    intro x _
    simp
  refine ⟨hfilter a b, ?_, ?_, ?_, ?_⟩
  · have h := commonLines_eq_filter a b
    unfold commonLines at h
    simp only at h
    rw [h, commonLines_first_pass, List.nil_append]
  · intro x
    rw [hfilter, List.mem_filter]
    simp
  · rw [hfilter]; rfl
  · rw [hfilter]; simp

/-- C15 (amended): an integer occurs in `commonLines(a, b)` as many times as it
occurs in `a` when it occurs in `b`, and not at all otherwise; so the result has
no repeated element whenever `a` has none, whatever repeats `b` holds. -/
theorem commonLines_duplicates (a b : List Int) :
    (a.Nodup → (commonLines a b).Nodup) ∧
    (∀ x : Int, (commonLines a b).count x = if x ∈ b then a.count x else 0) := by
  rw [commonLines_eq_filter]
  refine ⟨fun h => h.filter _, ?_⟩
  intro x
  by_cases hx : x ∈ b
  · rw [if_pos hx, List.count_filter (by simpa using hx)]
  · rw [if_neg hx, List.count_eq_zero]
    intro hmem
    exact hx (by simpa using (List.mem_filter.1 hmem).2)

/-- C15, witness: `a` without repeats, `b` with a repeated 2. -/
theorem commonLines_duplicates_witness :
    (commonLines [3, 1, 2] [2, 2, 3]).Nodup ∧ commonLines [3, 1, 2] [2, 2, 3] = [3, 2] :=
  ⟨(commonLines_duplicates [3, 1, 2] [2, 2, 3]).1 (by decide), by decide⟩

/-- C15, counterexample: a line repeated in `a` is repeated in the result. -/
theorem commonLines_duplicates_counterexample :
    commonLines [1, 1] [1] = [1, 1] ∧ ¬ (commonLines [1, 1] [1]).Nodup := by
  decide

/-- C16: `findRulesByName` returns as `match` the entries with nil `PathError`,
type `typ` and name `name`, as `nomatch` all the others, both in input order
(sublists of the input); together they are a permutation of the input and no
entry with a `PathError` is in `match`. -/
theorem findRulesByName_partition (ops : RuleOps R T) (entries : List (Entry R))
    (name : String) (typ : T) :
    (findRulesByName ops entries name typ).2 =
      entries.filter (fun e =>
        decide (e.PathError = none ∧ ops.Typ e.Rule = typ ∧ ops.Name e.Rule = name)) ∧
    (findRulesByName ops entries name typ).1 =
      entries.filter (fun e =>
        !decide (e.PathError = none ∧ ops.Typ e.Rule = typ ∧ ops.Name e.Rule = name)) ∧
    (findRulesByName ops entries name typ).2.Sublist entries ∧
    (findRulesByName ops entries name typ).1.Sublist entries ∧
    ((findRulesByName ops entries name typ).1 ++
      (findRulesByName ops entries name typ).2).Perm entries ∧
    (∀ e ∈ (findRulesByName ops entries name typ).2, e.PathError = none) := by
  have hp : ∀ e : Entry R, nameMatches ops name typ e =
      decide (e.PathError = none ∧ ops.Typ e.Rule = typ ∧ ops.Name e.Rule = name) := by
    intro e
    unfold nameMatches
    cases e.PathError <;> simp
  rw [findRulesByName_eq]
  refine ⟨?_, ?_, List.filter_sublist _, List.filter_sublist _,
    List.perm_append_comm.trans (List.filter_append_perm _ entries), ?_⟩
  · simp only [hp]
  · simp only [hp]
  · intro e he
    have := (List.mem_filter.1 he).2
    rw [hp] at this
    simp only [decide_eq_true_eq] at this
    exact this.1

/-- C17: every record of `matchEntries` has `hasBefore` or `hasAfter`, so the
default branch of the classifier is not taken on it and its state is never left
Unknown. -/
theorem matchEntries_never_unknown (ops : RuleOps R T) (modifiedLines afterLines : List Int)
    (before after : List (Entry R)) :
    ∀ me ∈ matchEntries ops before after,
      (me.hasBefore = true ∨ me.hasAfter = true) ∧
        (classify modifiedLines afterLines me).State ≠ ChangeType.Unknown := by
  intro me hme
  obtain ⟨_, hany⟩ := matchEntries_flags ops before after me hme
  refine ⟨hany, ?_⟩
  rcases me with ⟨mb, ma, hb, ha, hi, hw⟩
  cases hb <;> cases ha <;> cases hi <;> cases hw <;> simp_all [classify]

/-- C17, witness: a removed rule. -/
theorem matchEntries_never_unknown_witness :
    (beforeOnly sampleOps (sampleEntry "r.yml" "x" 1 1 [1]) ∈
      matchEntries sampleOps [sampleEntry "r.yml" "x" 1 1 [1]] []) ∧
    ((beforeOnly sampleOps (sampleEntry "r.yml" "x" 1 1 [1])).hasBefore = true ∨
        (beforeOnly sampleOps (sampleEntry "r.yml" "x" 1 1 [1])).hasAfter = true) ∧
      (classify [1] [1, 2]
        (beforeOnly sampleOps (sampleEntry "r.yml" "x" 1 1 [1]))).State ≠ ChangeType.Unknown :=
  ⟨by decide,
    matchEntries_never_unknown sampleOps [1] [1, 2] [sampleEntry "r.yml" "x" 1 1 [1]] []
      (beforeOnly sampleOps (sampleEntry "r.yml" "x" 1 1 [1])) (by decide)⟩

/-- C18: in the result of `matchEntries`, the before entries of the records with
`hasBefore` are a permutation of `before`, the after entries of the records with
`hasAfter` are `after`, and the length is `len(after) + len(before)` minus the
number of paired records. -/
theorem matchEntries_conservation (ops : RuleOps R T) (before after : List (Entry R)) :
    (((matchEntries ops before after).filter (fun m => m.hasBefore)).map
      (fun m => m.before)).Perm before ∧
    ((matchEntries ops before after).filter (fun m => m.hasAfter)).map (fun m => m.after) =
      after ∧
    (matchEntries ops before after).length =
      after.length + before.length -
        ((matchEntries ops before after).filter (fun m => m.hasBefore && m.hasAfter)).length := by
  refine ⟨matchEntries_before_perm ops after before, matchEntries_after_eq ops after before, ?_⟩
  have := matchEntries_length ops after before
  omega

/-- C19: every record of `matchEntries` satisfies: `wasMoved` implies
`isIdentical`; `isIdentical` implies `hasBefore`, `hasAfter`, a non-empty after
name, `after.Rule.IsIdentical(before.Rule)` and `wasMoved = (after.SourcePath !=
before.SourcePath)`; a record classified Moved is a content-identical pair at
different paths; a pair that is not identical (name pass) is classified Modified. -/
theorem matchEntries_flag_invariant (ops : RuleOps R T) (modifiedLines afterLines : List Int)
    (before after : List (Entry R)) :
    ∀ me ∈ matchEntries ops before after,
      (me.wasMoved = true → me.isIdentical = true) ∧
      (me.isIdentical = true →
        me.hasBefore = true ∧ me.hasAfter = true ∧ ops.Name me.after.Rule ≠ "" ∧
          ops.IsIdentical me.after.Rule me.before.Rule = true ∧
          me.wasMoved = decide (me.after.SourcePath ≠ me.before.SourcePath)) ∧
      ((classify modifiedLines afterLines me).State = ChangeType.Moved →
        ops.IsIdentical me.after.Rule me.before.Rule = true ∧
          me.after.SourcePath ≠ me.before.SourcePath) ∧
      (me.hasBefore = true → me.hasAfter = true → me.isIdentical = false →
        (classify modifiedLines afterLines me).State = ChangeType.Modified) := by
  intro me hme
  obtain ⟨hmv, hany⟩ := matchEntries_flags ops before after me hme
  have hid : me.isIdentical = true →
      me.hasBefore = true ∧ me.hasAfter = true ∧ ops.Name me.after.Rule ≠ "" ∧
        ops.IsIdentical me.after.Rule me.before.Rule = true ∧
        me.wasMoved = decide (me.after.SourcePath ≠ me.before.SourcePath) := by
    refine matchEntries_forall ops
      (fun me => me.isIdentical = true →
        me.hasBefore = true ∧ me.hasAfter = true ∧ ops.Name me.after.Rule ≠ "" ∧
          ops.IsIdentical me.after.Rule me.before.Rule = true ∧
          me.wasMoved = decide (me.after.SourcePath ≠ me.before.SourcePath))
      ?_ ?_ after before me hme
    · intro pool a h
      obtain ⟨h1, h2, h3, h4⟩ := matchStep_identity_flags ops pool a h
      exact ⟨h1, (matchStep_after ops a pool).2, h2, h3, h4⟩
    · intro b h
      simp [beforeOnly] at h
  refine ⟨hmv, hid, ?_, ?_⟩
  · intro hstate
    have hmoved : me.wasMoved = true := by
      rcases me with ⟨mb, ma, hb, ha, hi, hw⟩
      cases hb <;> cases ha <;> cases hi <;> cases hw <;> simp_all [classify]
    obtain ⟨_, _, _, h4, h5⟩ := hid (hmv hmoved)
    rw [hmoved] at h5
    exact ⟨h4, by simpa using h5.symm⟩
  · intro hb ha hi
    have hw : me.wasMoved = false := by
      cases h : me.wasMoved with
      | false => rfl
      | true => rw [hmv h] at hi; cases hi
    simp [classify, hb, ha, hi, hw]

/-- C19, witness: a rule moved from `old.yml` to `new.yml`. -/
theorem matchEntries_flag_invariant_witness :
    (classify [1] [1, 2]
        { before := sampleEntry "old.yml" "x" 1 1 [1], after := sampleEntry "new.yml" "x" 1 1 [1],
          hasBefore := true, hasAfter := true, isIdentical := true,
          wasMoved := true }).State = ChangeType.Moved ∧
    sampleOps.IsIdentical (sampleEntry "new.yml" "x" 1 1 [1]).Rule
        (sampleEntry "old.yml" "x" 1 1 [1]).Rule = true ∧
    (sampleEntry "new.yml" "x" 1 1 [1]).SourcePath ≠
      (sampleEntry "old.yml" "x" 1 1 [1]).SourcePath :=
  ⟨by decide,
    (matchEntries_flag_invariant sampleOps [1] [1, 2] [sampleEntry "old.yml" "x" 1 1 [1]]
      [sampleEntry "new.yml" "x" 1 1 [1]]
      { before := sampleEntry "old.yml" "x" 1 1 [1], after := sampleEntry "new.yml" "x" 1 1 [1],
        hasBefore := true, hasAfter := true, isIdentical := true, wasMoved := true }
      (by decide)).2.2.1 (by decide)⟩

/-- C20: if `IsIdentical` is reflexive and every rule has a non-empty name,
`matchEntries` on a list against itself pairs each entry with itself as identical
and not moved, leaves no before-only leftovers, and the classifier marks every
record Excluded with empty `ModifiedLines`. -/
theorem no_change_stability (ops : RuleOps R T) (modifiedLines afterLines : List Int)
    (entries : List (Entry R)) (hrefl : ∀ r : R, ops.IsIdentical r r = true)
    (hname : ∀ e ∈ entries, ops.Name e.Rule ≠ "") :
    matchEntries ops entries entries =
      entries.map (fun e =>
        { before := e, after := e, hasBefore := true, hasAfter := true,
          isIdentical := true, wasMoved := false }) ∧
    leftovers ops entries entries = [] ∧
    classifyAll modifiedLines afterLines [] (matchEntries ops entries entries) =
      entries.map (fun e => { e with State := ChangeType.Excluded, ModifiedLines := [] }) := by
  have h := matchEntries_self ops hrefl entries hname
  refine ⟨h, ?_, ?_⟩
  · unfold leftovers
    rw [h, List.map_eq_nil_iff, List.filter_eq_nil_iff]
    intro m hm
    obtain ⟨e, _, rfl⟩ := List.mem_map.1 hm
    simp
  · rw [classifyAll_eq, h, List.nil_append, List.map_map]
    apply List.map_congr_left
    intro e _
    simp [classify]

/-- C20, witness: three unchanged rules, the first two identical to each other. -/
theorem no_change_stability_witness :
    matchEntries sampleOps
        [sampleEntry "r.yml" "x" 1 1 [1], sampleEntry "r.yml" "x" 1 1 [5],
          sampleEntry "r.yml" "y" 1 2 [9]]
        [sampleEntry "r.yml" "x" 1 1 [1], sampleEntry "r.yml" "x" 1 1 [5],
          sampleEntry "r.yml" "y" 1 2 [9]] =
      [sampleEntry "r.yml" "x" 1 1 [1], sampleEntry "r.yml" "x" 1 1 [5],
        sampleEntry "r.yml" "y" 1 2 [9]].map (fun e =>
        { before := e, after := e, hasBefore := true, hasAfter := true,
          isIdentical := true, wasMoved := false }) ∧
    leftovers sampleOps
        [sampleEntry "r.yml" "x" 1 1 [1], sampleEntry "r.yml" "x" 1 1 [5],
          sampleEntry "r.yml" "y" 1 2 [9]]
        [sampleEntry "r.yml" "x" 1 1 [1], sampleEntry "r.yml" "x" 1 1 [5],
          sampleEntry "r.yml" "y" 1 2 [9]] = [] ∧
    classifyAll [1, 5] [1, 2, 3] []
        (matchEntries sampleOps
          [sampleEntry "r.yml" "x" 1 1 [1], sampleEntry "r.yml" "x" 1 1 [5],
            sampleEntry "r.yml" "y" 1 2 [9]]
          [sampleEntry "r.yml" "x" 1 1 [1], sampleEntry "r.yml" "x" 1 1 [5],
            sampleEntry "r.yml" "y" 1 2 [9]]) =
      [sampleEntry "r.yml" "x" 1 1 [1], sampleEntry "r.yml" "x" 1 1 [5],
        sampleEntry "r.yml" "y" 1 2 [9]].map (fun e =>
        { e with State := ChangeType.Excluded, ModifiedLines := [] }) :=
  no_change_stability sampleOps [1, 5] [1, 2, 3]
    [sampleEntry "r.yml" "x" 1 1 [1], sampleEntry "r.yml" "x" 1 1 [5],
      sampleEntry "r.yml" "y" 1 2 [9]]
    (by intro r; simp [sampleOps]) (by decide)

end Claims

end Discovery
